import Mathlib

/-!
Verification of the siglum-filesystem core: a shallow embedding of the
flat-store backend (`IndexedDBBackend.ts`) and of the mount resolver /
virtual filesystem service (`FileSystemService.ts`), together with proofs
about the embedded operations.

Strings are modelled by Lean `String` (a packed `List Char`); the embedding
manipulates the underlying character lists, mirroring the JavaScript string
operations used by the source.  IndexedDB object stores keyed by `path` are
modelled as lists of records with key-unique upsert (`put`) and key-delete
semantics; `Date.now()` is modelled by an explicit `now : Nat` argument.
-/

set_option maxHeartbeats 1000000

namespace SiglumFS

/-! ## Character-level path utilities -/

abbrev Chars := List Char

/-- The regex replace `path.replace(/\/+/g, '/')`: collapse every run of two
or more consecutive `'/'` characters into a single one. -/
def collapseSlashes : Chars → Chars
  | [] => []
  | [c] => [c]
  | a :: b :: rest =>
    if a = '/' ∧ b = '/' then collapseSlashes (b :: rest)
    else a :: collapseSlashes (b :: rest)

/-- `true` when the list contains no two adjacent `'/'` characters. -/
def noDoubleB : Chars → Bool
  | [] => true
  | [_] => true
  | a :: b :: rest => !(a = '/' && b = '/') && noDoubleB (b :: rest)

theorem collapseSlashes_head? : ∀ l : Chars, (collapseSlashes l).head? = l.head? := by
  intro l
  induction l using collapseSlashes.induct with
  | case1 => rfl
  | case2 c => rfl
  | case3 a b rest h ih =>
    rw [collapseSlashes, if_pos h, ih]
    simp [h.1, h.2]
  | case4 a b rest h ih =>
    rw [collapseSlashes, if_neg h]
    rfl

theorem noDoubleB_collapseSlashes : ∀ l : Chars, noDoubleB (collapseSlashes l) = true := by
  intro l
  induction l using collapseSlashes.induct with
  | case1 => rfl
  | case2 c => rfl
  | case3 a b rest h ih =>
    rw [collapseSlashes, if_pos h]; exact ih
  | case4 a b rest h ih =>
    rw [collapseSlashes, if_neg h]
    cases hc : collapseSlashes (b :: rest) with
    | nil => rfl
    | cons x xs =>
      have hx : x = b := by
        have := collapseSlashes_head? (b :: rest)
        rw [hc] at this
        simpa using this
      rw [noDoubleB]
      simp only [Bool.and_eq_true]
      constructor
      · rw [hx]
        by_cases ha : a = '/'
        · have hb : ¬ b = '/' := fun hb => h ⟨ha, hb⟩
          simp [hb]
        · simp [ha]
      · rw [← hc]; exact ih

theorem collapseSlashes_of_noDouble : ∀ l : Chars, noDoubleB l = true → collapseSlashes l = l := by
  intro l
  induction l using collapseSlashes.induct with
  | case1 => intro _; rfl
  | case2 c => intro _; rfl
  | case3 a b rest h ih =>
    intro hnd
    rw [noDoubleB] at hnd
    simp [h.1, h.2] at hnd
  | case4 a b rest h ih =>
    intro hnd
    rw [noDoubleB] at hnd
    rw [collapseSlashes, if_neg h, ih (by
      have := Bool.and_elim_right hnd
      exact this)]

/-- Prefix a leading `'/'` when the string does not already start with one. -/
def ensureLead (l : Chars) : Chars :=
  if l.head? = some '/' then l else '/' :: l

/-- `IndexedDBBackend.normalizePath` on character lists: ensure a leading
slash, then drop one trailing slash (unless the whole path is `"/"`),
then collapse runs of slashes — exactly in the source's order. -/
def bNormChars (l : Chars) : Chars :=
  let l1 := ensureLead l
  let l2 := if 1 < l1.length ∧ l1.getLast? = some '/' then l1.dropLast else l1
  collapseSlashes l2

/-- `FileSystemService.normalizePath` on character lists: ensure a leading
slash, then collapse runs of slashes.  It never strips a trailing slash. -/
def sNormChars (l : Chars) : Chars :=
  collapseSlashes (ensureLead l)

/-- `IndexedDBBackend.normalizePath` (also the `dist` build's copy). -/
def normalizePath (s : String) : String := ⟨bNormChars s.data⟩

/-- `FileSystemService.normalizePath`. -/
def serviceNormalizePath (s : String) : String := ⟨sNormChars s.data⟩

/-- `FileSystemService.normalizeMountPath`: service normalization plus a
guaranteed trailing slash. -/
def normalizeMountPath (s : String) : String :=
  let n := serviceNormalizePath s
  if n.data.getLast? = some '/' then n else ⟨n.data ++ ['/']⟩

theorem ensureLead_head? (l : Chars) : (ensureLead l).head? = some '/' := by
  unfold ensureLead
  by_cases h : l.head? = some '/'
  · rw [if_pos h]; exact h
  · rw [if_neg h]; rfl

theorem ensureLead_ne_nil (l : Chars) : ensureLead l ≠ [] := by
  intro h
  have := ensureLead_head? l
  rw [h] at this
  simp at this

theorem bNormChars_head? (l : Chars) : (bNormChars l).head? = some '/' := by
  unfold bNormChars
  rw [collapseSlashes_head?]
  by_cases h : 1 < (ensureLead l).length ∧ (ensureLead l).getLast? = some '/'
  · rw [if_pos h]
    rcases hl : ensureLead l with _ | ⟨c, rest⟩
    · exact absurd hl (ensureLead_ne_nil l)
    · have hc : c = '/' := by
        have := ensureLead_head? l
        rw [hl] at this
        simpa using this
      rcases rest with _ | ⟨d, rest'⟩
      · rw [hl] at h; simp at h
      · simp [List.dropLast, hc]
  · rw [if_neg h]
    exact ensureLead_head? l

theorem sNormChars_head? (l : Chars) : (sNormChars l).head? = some '/' := by
  unfold sNormChars
  rw [collapseSlashes_head?]
  exact ensureLead_head? l

theorem noDoubleB_bNormChars (l : Chars) : noDoubleB (bNormChars l) = true :=
  noDoubleB_collapseSlashes _

theorem noDoubleB_sNormChars (l : Chars) : noDoubleB (sNormChars l) = true :=
  noDoubleB_collapseSlashes _

/-- A canonical path (in the sense used for flat-store record keys) reduced
to itself by the backend normalizer. -/
theorem bNormChars_canonical (l : Chars)
    (h1 : l.head? = some '/') (h2 : l.getLast? ≠ some '/' ∨ l = ['/'])
    (h3 : noDoubleB l = true) : bNormChars l = l := by
  have he : ensureLead l = l := by unfold ensureLead; rw [if_pos h1]
  simp only [bNormChars, he]
  rcases h2 with h2 | h2
  · rw [if_neg (by intro hc; exact h2 hc.2)]
    exact collapseSlashes_of_noDouble l h3
  · subst h2
    simp [collapseSlashes]

/-! ## Lexicographic key order (IndexedDB compares string keys code unit
by code unit) and the `IDBKeyRange.bound(prefix, prefix + '￿', false,
true)` half-open range used by `readdir`. -/

def ltChars : Chars → Chars → Bool
  | [], [] => false
  | [], _ :: _ => true
  | _ :: _, [] => false
  | a :: as, b :: bs =>
    if a.toNat < b.toNat then true
    else if b.toNat < a.toNat then false
    else ltChars as bs

/-- The key `k` lies in the half-open range `[pref, pref + '￿')`. -/
def inKeyRange (pref k : Chars) : Bool :=
  !(ltChars k pref) && ltChars k (pref ++ ['￿'])

theorem char_eq_of_toNat_eq {a b : Char} (h : a.toNat = b.toNat) : a = b := by
  apply Char.ext
  apply UInt32.ext
  simpa [Char.toNat, UInt32.toNat] using h

theorem ltChars_append_left : ∀ l r1 r2 : Chars, ltChars (l ++ r1) (l ++ r2) = ltChars r1 r2 := by
  intro l r1 r2
  induction l with
  | nil => rfl
  | cons c cs ih => simp [ltChars, ih]

theorem ltChars_append_self : ∀ l r : Chars, ltChars (l ++ r) l = false := by
  intro l r
  induction l with
  | nil => cases r <;> rfl
  | cons c cs ih => simp [ltChars, ih]

theorem inKeyRange_isPrefix : ∀ pref k : Chars, inKeyRange pref k = true → pref <+: k := by
  intro pref
  induction pref with
  | nil => intro k _; exact List.nil_prefix
  | cons p ps ih =>
    intro k h
    cases k with
    | nil => simp [inKeyRange, ltChars] at h
    | cons a as =>
      unfold inKeyRange at h
      simp only [Bool.and_eq_true, Bool.not_eq_true'] at h
      by_cases h1 : a.toNat < p.toNat
      · rw [ltChars, if_pos h1] at h
        exact absurd h.1 (by simp)
      · by_cases h2 : p.toNat < a.toNat
        · have : ltChars (a :: as) ((p :: ps) ++ ['￿']) = false := by
            rw [List.cons_append, ltChars, if_neg h1, if_pos h2]
          rw [this] at h
          exact absurd h.2 (by simp)
        · have hap : a = p := char_eq_of_toNat_eq (Nat.le_antisymm (Nat.not_lt.mp h2) (Nat.not_lt.mp h1))
          subst hap
          have e1 : ltChars (a :: as) (a :: ps) = ltChars as ps := by
            rw [ltChars, if_neg h1, if_neg h2]
          have e2 : ltChars (a :: as) ((a :: ps) ++ ['￿']) = ltChars as (ps ++ ['￿']) := by
            rw [List.cons_append, ltChars, if_neg h1, if_neg h2]
          rw [e1] at h
          rw [e2] at h
          have := ih as (by unfold inKeyRange; simp [h.1, h.2])
          exact List.prefix_cons_inj a |>.mpr this |>.trans (by rfl)

theorem inKeyRange_append (pref r : Chars)
    (h : r = [] ∨ ∃ c r', r = c :: r' ∧ c.toNat < 65535) :
    inKeyRange pref (pref ++ r) = true := by
  unfold inKeyRange
  rw [ltChars_append_self, ltChars_append_left]
  rcases h with h | ⟨c, r', rfl, hc⟩
  · subst h; rfl
  · simp [ltChars, hc]

theorem isPrefix_drop_append {pref k : Chars} (h : pref <+: k) :
    pref ++ k.drop pref.length = k := by
  rcases h with ⟨t, rfl⟩
  rw [List.drop_left]

/-! ## Path splitting and ancestor-prefix chains (`mkdir`'s `pathsToCreate`). -/

/-- `path.split('/')` on character lists. -/
def splitOnSlash : Chars → List Chars
  | [] => [[]]
  | c :: rest =>
    if c = '/' then [] :: splitOnSlash rest
    else
      match splitOnSlash rest with
      | [] => [[c]]
      | s :: ss => (c :: s) :: ss

theorem splitOnSlash_no_slash : ∀ l s, s ∈ splitOnSlash l → '/' ∉ s := by
  intro l
  induction l with
  | nil =>
    intro s hs
    simp [splitOnSlash] at hs
    simp [hs]
  | cons c rest ih =>
    intro s hs
    by_cases hc : c = '/'
    · rw [splitOnSlash, if_pos hc] at hs
      rcases List.mem_cons.mp hs with h | h
      · simp [h]
      · exact ih s h
    · rw [splitOnSlash, if_neg hc] at hs
      rcases hsp : splitOnSlash rest with _ | ⟨t, ts⟩
      · rw [hsp] at hs
        simp at hs
        subst hs
        intro hmem
        rcases List.mem_singleton.mp hmem with h
        exact hc h.symm
      · rw [hsp] at hs
        rcases List.mem_cons.mp hs with h | h
        · subst h
          intro hmem
          rcases List.mem_cons.mp hmem with h | h
          · exact hc h.symm
          · exact ih t (by rw [hsp]; exact List.mem_cons_self t ts) h
        · exact ih s (by rw [hsp]; exact List.mem_cons_of_mem t h)

/-- The `for` loop of `mkdir` that accumulates `currentPath += '/' + part`. -/
def buildPrefixes (acc : Chars) : List Chars → List Chars
  | [] => []
  | p :: rest => (acc ++ '/' :: p) :: buildPrefixes (acc ++ '/' :: p) rest

/-- All ancestor prefixes of a normalized path, in root-to-leaf order
(`mkdir`'s `pathsToCreate`). -/
def pathsToCreateChars (n : Chars) : List Chars :=
  buildPrefixes [] ((splitOnSlash n).filter (fun s => s ≠ []))

theorem noDoubleB_append {l1 l2 : Chars} (h1 : noDoubleB l1 = true) (h2 : noDoubleB l2 = true)
    (h3 : ¬(l1.getLast? = some '/' ∧ l2.head? = some '/')) :
    noDoubleB (l1 ++ l2) = true := by
  induction l1 with
  | nil => simpa using h2
  | cons a rest ih =>
    cases rest with
    | nil =>
      cases l2 with
      | nil => rfl
      | cons b bs =>
        rw [List.singleton_append, noDoubleB]
        simp only [Bool.and_eq_true]
        refine ⟨?_, h2⟩
        simp only [List.getLast?_singleton, List.head?_cons] at h3
        by_cases ha : a = '/'
        · have hb : ¬ b = '/' := fun hb => h3 ⟨by rw [ha], by rw [hb]⟩
          simp [hb]
        · simp [ha]
    | cons b bs =>
      rw [noDoubleB] at h1
      simp only [Bool.and_eq_true] at h1
      have ih' := ih h1.2 (by
        intro hc
        apply h3
        refine ⟨?_, hc.2⟩
        rw [List.getLast?_cons_cons]
        exact hc.1)
      rw [List.cons_append, List.cons_append, noDoubleB]
      simp only [Bool.and_eq_true]
      exact ⟨h1.1, by rw [← List.cons_append]; exact ih'⟩

/-! ## The flat-store backend state (`IndexedDBBackend`) -/

/-- Error kinds surfaced by the backend (`ENOENT` rejections and the
cannot-rename-directories error). -/
inductive FsError where
  | notFound
  | invalidOperation
deriving DecidableEq

/-- A stored value: the `content` field holds either a string or a
`Uint8Array` (modelled as a list of numbers). -/
inductive FileContent where
  | text (s : String)
  | binary (b : List Nat)
deriving DecidableEq

/-- Record of the `files` object store. -/
structure StoredFile where
  path : String
  content : FileContent
  isBinary : Bool
  size : Nat
  mtime : Nat
  ctime : Nat
deriving DecidableEq

/-- Record of the `directories` object store. -/
structure StoredDirectory where
  path : String
  ctime : Nat
deriving DecidableEq

/-- The two object stores of the backend's database, each keyed by `path`. -/
structure IDBStore where
  files : List StoredFile
  dirs : List StoredDirectory
deriving DecidableEq

def initStore : IDBStore := ⟨[], []⟩

/-- `store.get(key)` on the files store. -/
def fileGet (st : IDBStore) (k : String) : Option StoredFile :=
  st.files.find? (fun f => f.path == k)

/-- `store.get(key)` on the directories store. -/
def dirGet (st : IDBStore) (k : String) : Option StoredDirectory :=
  st.dirs.find? (fun d => d.path == k)

/-- `store.put(record)`: upsert by key (keys are unique in an IndexedDB
object store, so replacing every record with the key is the same as
replacing the one record with it). -/
def filePut (l : List StoredFile) (f : StoredFile) : List StoredFile :=
  l.filter (fun g => g.path ≠ f.path) ++ [f]

def dirPut (l : List StoredDirectory) (d : StoredDirectory) : List StoredDirectory :=
  l.filter (fun g => g.path ≠ d.path) ++ [d]

/-- `store.delete(key)`. -/
def fileDel (l : List StoredFile) (k : String) : List StoredFile :=
  l.filter (fun g => g.path ≠ k)

def dirDel (l : List StoredDirectory) (k : String) : List StoredDirectory :=
  l.filter (fun g => g.path ≠ k)

/-- Abstract model of `TextEncoder.encode` (the exact byte encoding is
immaterial to every claim; only that decode inverts it on text). -/
def encodeStr (s : String) : List Nat := s.data.map Char.toNat

/-- Abstract model of `TextDecoder.decode`. -/
def decodeBytes (l : List Nat) : String := ⟨l.map Char.ofNat⟩

def contentAsString : FileContent → String
  | .text s => s
  | .binary b => decodeBytes b

def contentAsBytes : FileContent → List Nat
  | .text s => encodeStr s
  | .binary b => b

/-! ### Lookup/update lemmas for the keyed stores -/

theorem fileGet_filePut_self (st : List StoredFile) (f : StoredFile) :
    (st.filter (fun g => g.path ≠ f.path) ++ [f]).find? (fun g => g.path == f.path) = some f := by
  induction st with
  | nil => simp [List.find?]
  | cons g rest ih =>
    rw [List.filter_cons]
    by_cases h : g.path = f.path
    · rw [if_neg (by simp [h])]
      exact ih
    · rw [if_pos (by simp [h]), List.cons_append, List.find?,
        show (g.path == f.path) = false from beq_eq_false_iff_ne.mpr h]
      exact ih

theorem find?_filter_ne {α : Type} (l : List α) (key : α → String) (k k' : String)
    (hne : k ≠ k') :
    (l.filter (fun g => key g ≠ k')).find? (fun g => key g == k) =
      l.find? (fun g => key g == k) := by
  induction l with
  | nil => rfl
  | cons g rest ih =>
    by_cases h : key g = k'
    · rw [List.filter_cons, if_neg (by simp [h])]
      rw [List.find?]
      rw [show (key g == k) = false from beq_eq_false_iff_ne.mpr (by rw [h]; exact fun e => hne e.symm)]
      exact ih
    · rw [List.filter_cons, if_pos (by simp [h])]
      rw [List.find?, List.find?]
      cases hk : key g == k with
      | false => exact ih
      | true => rfl

theorem find?_append_ne {α : Type} (l : List α) (x : α) (key : α → String) (k : String)
    (hne : key x ≠ k) :
    (l ++ [x]).find? (fun g => key g == k) = l.find? (fun g => key g == k) := by
  induction l with
  | nil => simp [List.find?, beq_eq_false_iff_ne.mpr hne]
  | cons g rest ih =>
    rw [List.cons_append, List.find?, List.find?]
    cases hk : key g == k with
    | false => exact ih
    | true => rfl

theorem find?_eq_none_of_all {α : Type} {l : List α} {p : α → Bool}
    (h : ∀ x ∈ l, p x = false) : l.find? p = none := by
  rw [List.find?_eq_none]
  intro x hx
  simp [h x hx]

/-! ## Backend operations (`IndexedDBBackend` methods) -/

/-- Index of the last `'/'` in the list (JS `lastIndexOf`, `none` for -1). -/
def lastSlashIdx : Chars → Option Nat
  | [] => none
  | c :: rest =>
    match lastSlashIdx rest with
    | some i => some (i + 1)
    | none => if c = '/' then some 0 else none

/-- `IndexedDBBackend.getParentPath`. -/
def getParentPath (s : String) : String :=
  let n := (normalizePath s).data
  match lastSlashIdx n with
  | none => "/"
  | some i => if i = 0 then "/" else ⟨n.take i⟩

/-- `readFile`: `ENOENT` when no record, otherwise the stored string
(decoding binary content). -/
def readFile (st : IDBStore) (path : String) : Except FsError String :=
  match fileGet st (normalizePath path) with
  | none => .error .notFound
  | some f => .ok (if f.isBinary then decodeBytes (contentAsBytes f.content) else contentAsString f.content)

/-- `readBinary`: `ENOENT` when no record, otherwise the stored bytes
(encoding text content). -/
def readBinary (st : IDBStore) (path : String) : Except FsError (List Nat) :=
  match fileGet st (normalizePath path) with
  | none => .error .notFound
  | some f => .ok (if f.isBinary then contentAsBytes f.content else encodeStr (contentAsString f.content))

/-- `exists`: file record first, then directory record. -/
def existsPath (st : IDBStore) (path : String) : Bool :=
  let n := normalizePath path
  (fileGet st n).isSome || (dirGet st n).isSome

/-- The derived read-only view returned by `stat` (`mtime` kept as the raw
millisecond count). -/
structure FileStats where
  size : Nat
  isDirectory : Bool
  isFile : Bool
  mtime : Nat
deriving DecidableEq

/-- `stat`: file record first, then directory record, else `ENOENT`. -/
def statFs (st : IDBStore) (path : String) : Except FsError FileStats :=
  match fileGet st (normalizePath path) with
  | some f => .ok ⟨f.size, false, true, f.mtime⟩
  | none =>
    match dirGet st (normalizePath path) with
    | some d => .ok ⟨0, true, false, d.ctime⟩
    | none => .error .notFound

/-- `mkdir`: decompose into ancestor prefixes, look up which already have
directory records, then put the missing ones (each with ctime `now`). -/
def mkdir (st : IDBStore) (path : String) (now : Nat) : IDBStore :=
  let n := normalizePath path
  let toCreate := (pathsToCreateChars n.data).map (fun l => (⟨l⟩ : String))
  let missing := toCreate.filter (fun p => (dirGet st p).isNone)
  missing.foldl (fun s p => { s with dirs := dirPut s.dirs ⟨p, now⟩ }) st

/-- `deleteFile`: idempotent key delete on the files store. -/
def deleteFile (st : IDBStore) (path : String) : IDBStore :=
  { st with files := fileDel st.files (normalizePath path) }

/-- `writeFile`: ensure the parent directory chain exists (implicit ancestor
creation), then upsert the record, preserving `ctime` of an existing record
and stamping `mtime := now`.  The byte `size` of the blob is modelled by
`encodeStr`. -/
def writeFile (st : IDBStore) (path content : String) (now : Nat) : IDBStore :=
  let n := normalizePath path
  let parentPath := getParentPath n
  let st1 := if parentPath ≠ "/" ∧ existsPath st parentPath = false then mkdir st parentPath now else st
  let existing := fileGet st1 n
  let rec0 : StoredFile :=
    { path := n, content := .text content, isBinary := false,
      size := (encodeStr content).length, mtime := now,
      ctime := (existing.map (fun f => f.ctime)).getD now }
  { st1 with files := filePut st1.files rec0 }

/-- `writeBinary`: binary variant of `writeFile`. -/
def writeBinary (st : IDBStore) (path : String) (content : List Nat) (now : Nat) : IDBStore :=
  let n := normalizePath path
  let parentPath := getParentPath n
  let st1 := if parentPath ≠ "/" ∧ existsPath st parentPath = false then mkdir st parentPath now else st
  let existing := fileGet st1 n
  let rec0 : StoredFile :=
    { path := n, content := .binary content, isBinary := true,
      size := content.length, mtime := now,
      ctime := (existing.map (fun f => f.ctime)).getD now }
  { st1 with files := filePut st1.files rec0 }

/-- `rename`: reads the source (rejecting `ENOENT` first), then checks for a
directory, then write-new/delete-old. -/
def rename (st : IDBStore) (oldPath newPath : String) (now : Nat) : Except FsError IDBStore :=
  match readBinary st oldPath with
  | .error e => .error e
  | .ok content =>
    match statFs st oldPath with
    | .error e => .error e
    | .ok stats =>
      if stats.isDirectory then .error .invalidOperation
      else .ok (deleteFile (writeBinary st newPath content now) oldPath)

/-! ### `readdir`: prefix-range scans over both stores -/

/-- Directory-listing entry (`FileEntry` of `types.ts`). -/
structure FileEntry where
  name : String
  path : String
  isDirectory : Bool
deriving DecidableEq

/-- The immediate-child name of a record key relative to the scan prefix
(`relativePath.slice(0, slashIndex)`, or all of `relativePath` when it has
no slash). -/
def childName (pref kd : Chars) : Chars :=
  (kd.drop pref.length).takeWhile (fun c => c ≠ '/')

/-- `relativePath` has no further slash (`slashIndex === -1`). -/
def isDirectChild (pref kd : Chars) : Bool :=
  (kd.drop pref.length).all (fun c => c != '/')

/-- The cursor loop over the files store restricted to the key range:
returns the entries plus the final `seenNames` set. -/
def fileScan (pref : Chars) : List StoredFile → List String → List FileEntry × List String
  | [], seen => ([], seen)
  | f :: rest, seen =>
    if inKeyRange pref f.path.data then
      if childName pref f.path.data ≠ [] ∧
          (⟨childName pref f.path.data⟩ : String) ∉ seen ∧
          isDirectChild pref f.path.data = true then
        (⟨⟨childName pref f.path.data⟩, f.path, false⟩ ::
            (fileScan pref rest ((⟨childName pref f.path.data⟩ : String) :: seen)).1,
          (fileScan pref rest ((⟨childName pref f.path.data⟩ : String) :: seen)).2)
      else fileScan pref rest seen
    else fileScan pref rest seen

/-- The cursor loop over the directories store (the scanned directory's own
record is skipped; the first path segment after the prefix is emitted). -/
def dirScan (n pref : Chars) : List StoredDirectory → List String → List FileEntry
  | [], _ => []
  | d :: rest, seen =>
    if inKeyRange pref d.path.data ∧ d.path.data ≠ n then
      if childName pref d.path.data ≠ [] ∧ (⟨childName pref d.path.data⟩ : String) ∉ seen then
        ⟨⟨childName pref d.path.data⟩, ⟨pref ++ childName pref d.path.data⟩, true⟩ ::
          dirScan n pref rest ((⟨childName pref d.path.data⟩ : String) :: seen)
      else dirScan n pref rest seen
    else dirScan n pref rest seen

/-- The final comparator: directories before files, then by name (name
comparison modelled as code-unit lexicographic order). -/
def entryBefore (a b : FileEntry) : Bool :=
  if a.isDirectory != b.isDirectory then a.isDirectory else ltChars a.name.data b.name.data

def insertEntry (e : FileEntry) : List FileEntry → List FileEntry
  | [] => [e]
  | x :: xs => if entryBefore e x then e :: x :: xs else x :: insertEntry e xs

/-- Stable sort by `entryBefore` (JS `Array.prototype.sort` is stable). -/
def sortEntries (l : List FileEntry) : List FileEntry :=
  l.foldl (fun acc e => insertEntry e acc) []

/-- The scanned key prefix: `normalized === '/' ? '/' : normalized + '/'`. -/
def prefOf (n : String) : Chars :=
  if n.data = ['/'] then ['/'] else n.data ++ ['/']

/-- `readdir`. -/
def readdirEntries (st : IDBStore) (path : String) : List FileEntry :=
  let n := normalizePath path
  let fs := fileScan (prefOf n) st.files []
  let des := dirScan n.data (prefOf n) st.dirs fs.2
  sortEntries (fs.1 ++ des)

/-! ### `rmdir` -/

/-- The recursive-deletion loop body of `rmdir`: delete file entries, recurse
into directory entries. -/
def processEntries (rm : IDBStore → String → IDBStore) : IDBStore → List FileEntry → IDBStore
  | st, [] => st
  | st, e :: rest =>
    processEntries rm (if e.isDirectory then rm st e.path else deleteFile st e.path) rest

/-- `rmdir(path, {recursive})`, with an explicit recursion budget `fuel`
standing in for the unbounded JS recursion (every theorem below supplies
enough fuel for the store at hand; with fuel `0` the call is a no-op). -/
def rmdirF : Nat → IDBStore → String → Bool → IDBStore
  | 0, st, _, _ => st
  | fuel + 1, st, path, recursive =>
    let n := normalizePath path
    let st1 := if recursive then
        processEntries (fun s q => rmdirF fuel s q true) st (readdirEntries st n)
      else st
    { st1 with dirs := dirDel st1.dirs n }

/-! ### `writeBinaryBatch` -/

structure WriteBinaryBatchEntry where
  path : String
  content : List Nat
deriving DecidableEq

/-- The ancestor-directory chain of an entry's parent (`parts.pop()` drops
the filename). -/
def parentChain (path : String) : List String :=
  let n := normalizePath path
  let parts := ((splitOnSlash n.data).filter (fun s => s ≠ [])).dropLast
  (buildPrefixes [] parts).map (fun l => (⟨l⟩ : String))

/-- JS `Set` insertion order: first occurrence wins. -/
def addUnique (acc : List String) (x : String) : List String :=
  if x ∈ acc then acc else acc ++ [x]

def dirsToCreateFor (entries : List WriteBinaryBatchEntry) : List String :=
  entries.foldl (fun acc e => (parentChain e.path).foldl addUnique acc) []

/-- `writeBinaryBatch`: create the union of parent directories up front, then
put every entry with `mtime := now` and `ctime := now` (chunked commits do
not change the resulting store, so the chunking and the progress callback
are not modelled). -/
def writeBinaryBatch (st : IDBStore) (entries : List WriteBinaryBatchEntry)
    (createParents : Bool) (now : Nat) : IDBStore :=
  if entries.length = 0 then st
  else
    let st1 := if createParents then
        (dirsToCreateFor entries).foldl (fun s d => mkdir s d now) st
      else st
    entries.foldl (fun s e =>
      let rec0 : StoredFile :=
        { path := normalizePath e.path, content := .binary e.content, isBinary := true,
          size := e.content.length, mtime := now, ctime := now }
      { s with files := filePut s.files rec0 }) st1

/-! ## Mount resolver / virtual filesystem service (`FileSystemService`) -/

/-- A mount-table entry; backends are identified by a numeric id (the claims
never depend on backend internals beyond identity, except `readdir`, which
is modelled against the flat-store backend). -/
structure MountPoint where
  path : String
  backendId : Nat
deriving DecidableEq

/-- Stable insertion preserving the order of equal lengths, used to model
`Array.prototype.sort` (stable per the JS spec) with the comparator
`(a, b) => b.path.length - a.path.length`. -/
def insertMount (m : MountPoint) : List MountPoint → List MountPoint
  | [] => [m]
  | x :: xs => if x.path.length < m.path.length then m :: x :: xs else x :: insertMount m xs

def sortMounts (l : List MountPoint) : List MountPoint :=
  l.foldl (fun acc m => insertMount m acc) []

/-- `FileSystemService.mount`: drop any mount at the same normalized path,
append the new one, re-sort by path length descending. -/
def mountOp (ms : List MountPoint) (path : String) (backendId : Nat) : List MountPoint :=
  let np := normalizeMountPath path
  sortMounts ((ms.filter (fun m => m.path ≠ np)) ++ [⟨np, backendId⟩])

/-- `FileSystemService.unmount`. -/
def unmountOp (ms : List MountPoint) (path : String) : List MountPoint :=
  let np := normalizeMountPath path
  ms.filter (fun m => m.path ≠ np)

inductive MountAction where
  | mount (path : String) (backendId : Nat)
  | unmount (path : String)
deriving DecidableEq

def applyMountAction (ms : List MountPoint) : MountAction → List MountPoint
  | .mount p b => mountOp ms p b
  | .unmount p => unmountOp ms p

/-- The mount table produced by a sequence of mount/unmount calls starting
from the empty table. -/
def applyMountActions (acts : List MountAction) : List MountPoint :=
  acts.foldl applyMountAction []

/-- The structural match of `getBackendForPath`: the normalized path starts
with the mount path, or equals the mount path stripped of its trailing
slash. -/
def mountMatches (n : Chars) (m : MountPoint) : Bool :=
  m.path.data.isPrefixOf n || n == m.path.data.dropLast

/-- `FileSystemService.getBackendForPath`: scan the table in order, return
the first structural match together with the backend-relative path; `none`
models the `No filesystem mounted` error. -/
def getBackendForPath (ms : List MountPoint) (path : String) : Option (MountPoint × String) :=
  let n := (serviceNormalizePath path).data
  match ms.find? (fun m => mountMatches n m) with
  | none => none
  | some m =>
    let rel := n.drop m.path.length
    some (m, ⟨if rel.head? = some '/' then rel else '/' :: rel⟩)

/-- `FileSystemService.readdir`: resolve, list on the backend, then rewrite
each entry path with `normalizedMountPath + entry.path.slice(1)` (keeping it
unchanged when the normalized request path is the root). -/
def serviceReaddir (ms : List MountPoint) (stores : Nat → IDBStore) (path : String) :
    Option (List FileEntry) :=
  match getBackendForPath ms path with
  | none => none
  | some (m, rel) =>
    let entries := readdirEntries (stores m.backendId) rel
    let nmp := serviceNormalizePath path
    some (entries.map (fun e =>
      { e with path := if nmp = "/" then e.path else ⟨nmp.data ++ e.path.data.drop 1⟩ }))

/-! ## Change notification (`subscribe` / `emit`)

Handlers are identified by numeric ids held in insertion order (a JS `Set`
iterates in insertion order); `behaviorThrows h = true` models a handler
whose invocation throws.  `emitRun` models
`eventHandlers.forEach(handler => handler(event))`: handlers run in order
and an exception aborts the iteration.  It returns the list of handlers that
were invoked and whether an exception escaped. -/

def subscribeOp (handlers : List Nat) (h : Nat) : List Nat :=
  if h ∈ handlers then handlers else handlers ++ [h]

def emitRun (behaviorThrows : Nat → Bool) : List Nat → List Nat × Bool
  | [] => ([], false)
  | h :: rest =>
    if behaviorThrows h then ([h], true)
    else
      let r := emitRun behaviorThrows rest
      (h :: r.1, r.2)

/-! ## Store-level helper lemmas -/

theorem fileGet_filePut {fs : List StoredFile} {ds : List StoredDirectory} {f : StoredFile}
    {k : String} (hk : f.path = k) :
    fileGet ⟨filePut fs f, ds⟩ k = some f := by
  subst hk
  exact fileGet_filePut_self fs f

theorem fileGet_filePut_ne {fs : List StoredFile} {ds : List StoredDirectory} {f : StoredFile}
    {k : String} (hk : k ≠ f.path) :
    fileGet ⟨filePut fs f, ds⟩ k = fs.find? (fun g => g.path == k) := by
  show (fs.filter (fun g => g.path ≠ f.path) ++ [f]).find? (fun g => g.path == k) = _
  rw [find?_append_ne _ f (fun g => g.path) k (fun h => hk h.symm)]
  exact find?_filter_ne fs (fun g => g.path) k f.path hk

theorem fileGet_eq_of_files {st1 st2 : IDBStore} (h : st1.files = st2.files) (k : String) :
    fileGet st1 k = fileGet st2 k := by
  unfold fileGet
  rw [h]

theorem dirGet_eq_of_dirs {st1 st2 : IDBStore} (h : st1.dirs = st2.dirs) (k : String) :
    dirGet st1 k = dirGet st2 k := by
  unfold dirGet
  rw [h]

theorem foldl_dirPutFold_files (l : List String) (st : IDBStore) (now : Nat) :
    (l.foldl (fun s p => { s with dirs := dirPut s.dirs ⟨p, now⟩ }) st).files = st.files := by
  induction l generalizing st with
  | nil => rfl
  | cons q rest ih => rw [List.foldl_cons]; exact ih _

/-- `mkdir` never touches the files store. -/
theorem mkdir_files (st : IDBStore) (p : String) (now : Nat) :
    (mkdir st p now).files = st.files := by
  simp only [mkdir]
  exact foldl_dirPutFold_files _ st now

/-- A fold of `mkdir`s never touches the files store. -/
theorem foldl_mkdir_files (st : IDBStore) (l : List String) (now : Nat) :
    (l.foldl (fun s d => mkdir s d now) st).files = st.files := by
  induction l generalizing st with
  | nil => rfl
  | cons q rest ih => rw [List.foldl_cons, ih, mkdir_files]

/-- The state after `writeFile`'s implicit parent creation has the same
files store as the input. -/
theorem writeFile_parent_files (st : IDBStore) (q : String) (now : Nat) :
    (if getParentPath q ≠ "/" ∧ existsPath st (getParentPath q) = false
      then mkdir st (getParentPath q) now else st).files = st.files := by
  split
  · exact mkdir_files st _ now
  · rfl

theorem writeFile_fileGet (st : IDBStore) (p c : String) (now : Nat) :
    ∃ r : StoredFile, fileGet (writeFile st p c now) (normalizePath p) = some r ∧
      r.content = .text c ∧ r.isBinary = false ∧ r.mtime = now ∧
      r.ctime = ((fileGet st (normalizePath p)).map (fun f => f.ctime)).getD now := by
  simp only [writeFile]
  refine ⟨_, fileGet_filePut rfl, rfl, rfl, rfl, ?_⟩
  rw [fileGet_eq_of_files (writeFile_parent_files st (normalizePath p) now) (normalizePath p)]

theorem writeBinary_fileGet (st : IDBStore) (p : String) (bs : List Nat) (now : Nat) :
    ∃ r : StoredFile, fileGet (writeBinary st p bs now) (normalizePath p) = some r ∧
      r.content = .binary bs ∧ r.isBinary = true ∧ r.mtime = now ∧
      r.ctime = ((fileGet st (normalizePath p)).map (fun f => f.ctime)).getD now := by
  simp only [writeBinary]
  refine ⟨_, fileGet_filePut rfl, rfl, rfl, rfl, ?_⟩
  rw [fileGet_eq_of_files (writeFile_parent_files st (normalizePath p) now) (normalizePath p)]

/-! ## C7: the path normalizer -/

/-- C7, counterexample: on input `"/a//"` the backend normalizer strips the
trailing slash before collapsing the run, producing `"/a/"` — an output that
ends with `'/'` although it is not the root, contradicting the claimed
canonical form (and the claimed rule order prefix → collapse → strip). -/
theorem normalizePath_trailing_slash_counterexample :
    normalizePath "/a//" = "/a/" ∧ normalizePath "/a//" ≠ "/" ∧
      (normalizePath "/a//").data.getLast? = some '/' := by
  refine ⟨rfl, ?_, rfl⟩
  decide

/-- C7 (amended): both normalizers are total functions whose output always
starts with `'/'` and contains no run of two or more `'/'`; the trailing
slash is only guaranteed to be stripped when the input has exactly one
(backend normalizer applies prefix → strip one trailing slash → collapse,
in that order; the service normalizer never strips). -/
theorem normalizePath_canonical_shape (s : String) :
    (normalizePath s).data.head? = some '/' ∧ noDoubleB (normalizePath s).data = true ∧
    (serviceNormalizePath s).data.head? = some '/' ∧
    noDoubleB (serviceNormalizePath s).data = true :=
  ⟨bNormChars_head? s.data, noDoubleB_bNormChars s.data,
   sNormChars_head? s.data, noDoubleB_sNormChars s.data⟩

/-! ## C2: write/read round-trip on the flat-store backend -/

/-- C2: for every store, path and content, `writeFile` followed by
`readFile` returns exactly the written string, and `writeBinary` followed by
`readBinary` returns exactly the written bytes. -/
theorem write_read_roundtrip (st : IDBStore) (p c : String) (bs : List Nat) (now now' : Nat) :
    readFile (writeFile st p c now) p = .ok c ∧
    readBinary (writeBinary st p bs now') p = .ok bs := by
  constructor
  · obtain ⟨r, hr, hc, hb, _, _⟩ := writeFile_fileGet st p c now
    unfold readFile
    rw [hr]
    simp [hb, hc, contentAsString]
  · obtain ⟨r, hr, hc, hb, _, _⟩ := writeBinary_fileGet st p bs now'
    unfold readBinary
    rw [hr]
    simp [hb, hc, contentAsBytes]

/-! ## C3: `mkdir` creates the whole ancestor chain, idempotently -/

theorem find?_put_self {α : Type} (l : List α) (key : α → String) (x : α) :
    (l.filter (fun g => key g ≠ key x) ++ [x]).find? (fun g => key g == key x) = some x := by
  induction l with
  | nil => simp [List.find?]
  | cons g rest ih =>
    rw [List.filter_cons]
    by_cases h : key g = key x
    · rw [if_neg (by simp [h])]
      exact ih
    · rw [if_pos (by simp [h]), List.cons_append, List.find?,
        show (key g == key x) = false from beq_eq_false_iff_ne.mpr h]
      exact ih

theorem dirGet_dirPut {ds : List StoredDirectory} {fs : List StoredFile} {d : StoredDirectory}
    {k : String} (hk : d.path = k) :
    dirGet ⟨fs, dirPut ds d⟩ k = some d := by
  subst hk
  exact find?_put_self ds (fun g => g.path) d

theorem dirGet_dirPut_ne {ds : List StoredDirectory} {fs : List StoredFile} {d : StoredDirectory}
    {k : String} (hk : k ≠ d.path) :
    dirGet ⟨fs, dirPut ds d⟩ k = ds.find? (fun g => g.path == k) := by
  show (ds.filter (fun g => g.path ≠ d.path) ++ [d]).find? (fun g => g.path == k) = _
  rw [find?_append_ne _ d (fun g => g.path) k (fun h => hk h.symm)]
  exact find?_filter_ne ds (fun g => g.path) k d.path hk

theorem dirGet_dirPut_isSome_mono {st : IDBStore} {k : String} (d : StoredDirectory)
    (h : (dirGet st k).isSome = true) :
    (dirGet ⟨st.files, dirPut st.dirs d⟩ k).isSome = true := by
  by_cases hk : k = d.path
  · rw [dirGet_dirPut hk.symm]
    rfl
  · rw [dirGet_dirPut_ne hk]
    exact h

theorem foldl_dirPut_isSome_mono (l : List String) (now : Nat) :
    ∀ st k, (dirGet st k).isSome = true →
      (dirGet (l.foldl (fun s p => { s with dirs := dirPut s.dirs ⟨p, now⟩ }) st) k).isSome = true := by
  induction l with
  | nil => intro st k h; exact h
  | cons q rest ih =>
    intro st k h
    rw [List.foldl_cons]
    exact ih _ k (dirGet_dirPut_isSome_mono _ h)

theorem foldl_dirPut_mem_isSome (l : List String) (now : Nat) :
    ∀ st q, q ∈ l →
      (dirGet (l.foldl (fun s p => { s with dirs := dirPut s.dirs ⟨p, now⟩ }) st) q).isSome = true := by
  induction l with
  | nil => intro st q h; exact absurd h (List.not_mem_nil q)
  | cons x rest ih =>
    intro st q h
    rw [List.foldl_cons]
    rcases List.mem_cons.mp h with h | h
    · subst h
      exact foldl_dirPut_isSome_mono rest now _ q (by rw [dirGet_dirPut rfl]; rfl)
    · exact ih _ q h

/-- Every directory record put by `mkdir`'s decomposition has a path that is
already in canonical key form. -/
theorem noSlash_noDouble (l : Chars) (h : '/' ∉ l) : noDoubleB l = true := by
  induction l with
  | nil => rfl
  | cons a rest ih =>
    cases rest with
    | nil => rfl
    | cons b bs =>
      rw [noDoubleB]
      simp only [Bool.and_eq_true]
      refine ⟨?_, ih (fun hm => h (List.mem_cons_of_mem a hm))⟩
      have ha : a ≠ '/' := fun e => h (by rw [e]; exact List.mem_cons_self _ _)
      simp [ha]

theorem buildPrefixes_props (parts : List Chars) (acc : Chars)
    (hparts : ∀ s ∈ parts, s ≠ [] ∧ '/' ∉ s)
    (hacc : acc = [] ∨ (acc.head? = some '/' ∧ acc.getLast? ≠ some '/' ∧ noDoubleB acc = true)) :
    ∀ q ∈ buildPrefixes acc parts,
      q.head? = some '/' ∧ q.getLast? ≠ some '/' ∧ noDoubleB q = true ∧ 2 ≤ q.length := by
  induction parts generalizing acc with
  | nil => intro q hq; exact absurd hq (List.not_mem_nil q)
  | cons p rest ih =>
    intro q hq
    obtain ⟨hp1, hp2⟩ := hparts p (List.mem_cons_self p rest)
    obtain ⟨ph, pt, rfl⟩ : ∃ ph pt, p = ph :: pt := by
      cases p with
      | nil => exact absurd rfl hp1
      | cons ph pt => exact ⟨ph, pt, rfl⟩
    have hmem_last : ∀ (m : Chars) (a : Char), m.getLast? = some a → a ∈ m := by
      intro m
      induction m with
      | nil => intro a h; simp at h
      | cons x xs ih =>
        intro a h
        cases xs with
        | nil =>
          simp only [List.getLast?_singleton, Option.some_inj] at h
          simp [h]
        | cons y ys =>
          rw [List.getLast?_cons_cons] at h
          exact List.mem_cons_of_mem x (ih a h)
    have hlast : ∀ m : Chars, '/' ∉ m → m.getLast? ≠ some '/' := by
      intro m hm he
      exact hm (hmem_last m '/' he)
    have hstep : (acc ++ '/' :: ph :: pt).head? = some '/' ∧
        (acc ++ '/' :: ph :: pt).getLast? ≠ some '/' ∧
        noDoubleB (acc ++ '/' :: ph :: pt) = true ∧ 2 ≤ (acc ++ '/' :: ph :: pt).length := by
      have hnd2 : noDoubleB ('/' :: ph :: pt) = true := by
        rw [noDoubleB]
        simp only [Bool.and_eq_true]
        constructor
        · have : ph ≠ '/' := fun e => hp2 (by rw [e]; exact List.mem_cons_self _ _)
          simp [this]
        · exact noSlash_noDouble _ hp2
      have hlst : (acc ++ '/' :: ph :: pt).getLast? ≠ some '/' := by
        rw [List.getLast?_append_cons acc '/' (ph :: pt)]
        rw [List.getLast?_cons_cons]
        exact hlast (ph :: pt) hp2
      rcases hacc with rfl | ⟨ha1, ha2, ha3⟩
      · refine ⟨rfl, by simpa using hlst, by simpa using hnd2, by simp⟩
      · obtain ⟨a0, as, rfl⟩ : ∃ a0 as, acc = a0 :: as := by
          cases acc with
          | nil => simp at ha1
          | cons a0 as => exact ⟨a0, as, rfl⟩
        refine ⟨by simpa using ha1, hlst, ?_, by simp; omega⟩
        exact noDoubleB_append ha3 hnd2 (by
          intro ⟨hx, _⟩
          exact ha2 hx)
    rcases List.mem_cons.mp hq with rfl | hq'
    · exact hstep
    · exact ih (acc ++ '/' :: ph :: pt)
        (fun s hs => hparts s (List.mem_cons_of_mem (ph :: pt) hs))
        (Or.inr ⟨hstep.1, hstep.2.1, hstep.2.2.1⟩) q hq'

theorem pathsToCreateChars_props (n : Chars) :
    ∀ q ∈ pathsToCreateChars n,
      q.head? = some '/' ∧ q.getLast? ≠ some '/' ∧ noDoubleB q = true ∧ 2 ≤ q.length := by
  apply buildPrefixes_props
  · intro s hs
    refine ⟨?_, splitOnSlash_no_slash n s (List.mem_of_mem_filter hs)⟩
    have := (List.mem_filter.mp hs).2
    simpa using this
  · exact Or.inl rfl

/-- Paths in the ancestor chain are already canonical, so they normalize to
themselves. -/
theorem normalizePath_of_mem_toCreate {n : Chars} {q : Chars} (hq : q ∈ pathsToCreateChars n) :
    normalizePath ⟨q⟩ = ⟨q⟩ := by
  obtain ⟨h1, h2, h3, _⟩ := pathsToCreateChars_props n q hq
  unfold normalizePath
  exact congrArg String.mk (bNormChars_canonical q h1 (Or.inl h2) h3)

/-- All paths in `mkdir`'s decomposition end up with a directory record. -/
theorem mkdir_dirGet_isSome (st : IDBStore) (p : String) (now : Nat) :
    ∀ q ∈ (pathsToCreateChars (normalizePath p).data).map (fun l => (⟨l⟩ : String)),
      (dirGet (mkdir st p now) q).isSome = true := by
  intro q hq
  simp only [mkdir]
  by_cases h : (dirGet st q).isSome = true
  · exact foldl_dirPut_isSome_mono _ now st q h
  · apply foldl_dirPut_mem_isSome
    rw [List.mem_filter]
    refine ⟨hq, ?_⟩
    simp only [Option.isNone_iff_eq_none]
    simp only [Bool.not_eq_true] at h
    simpa [Option.isSome_iff_exists] using (Option.not_isSome_iff_eq_none.mp (by simp [h]))

/-- C3: after `mkdir(p)` every ancestor prefix of the normalized path
(`pathsToCreate`) satisfies `exists`, and a second `mkdir` of the same path
(at any later time) returns without error and leaves the store unchanged. -/
theorem mkdir_ancestors_and_idempotent (st : IDBStore) (p : String) (now now' : Nat) :
    (∀ q ∈ (pathsToCreateChars (normalizePath p).data).map (fun l => (⟨l⟩ : String)),
       existsPath (mkdir st p now) q = true)
    ∧ mkdir (mkdir st p now) p now' = mkdir st p now := by
  constructor
  · intro q hq
    obtain ⟨l, hl, rfl⟩ := List.mem_map.mp hq
    unfold existsPath
    rw [normalizePath_of_mem_toCreate hl]
    rw [Bool.or_eq_true]
    right
    exact mkdir_dirGet_isSome st p now _ hq
  · conv_lhs => rw [mkdir]
    have hempty : ((pathsToCreateChars (normalizePath p).data).map (fun l => (⟨l⟩ : String))).filter
        (fun q => (dirGet (mkdir st p now) q).isNone) = [] := by
      rw [List.filter_eq_nil_iff]
      intro q hq
      have := mkdir_dirGet_isSome st p now q hq
      simp [Option.isNone_iff_eq_none]
      exact Option.isSome_iff_exists.mp this |>.elim (fun x hx => by rw [hx]; exact fun h => by simp at h)
    rw [hempty]
    rfl

/-! ## C9: event emission -/

/-- C9, counterexample: with handlers subscribed in order `[0, 1]` and
handler `0` throwing, `emit` (a plain `forEach` with no exception isolation)
invokes only handler `0`; handler `1` is subscribed but never invoked, so a
throwing handler does prevent the remaining handlers from running. -/
theorem emit_throw_counterexample :
    (emitRun (fun n => n == 0) (subscribeOp (subscribeOp [] 0) 1)).1 = [0] ∧
    (1 : Nat) ∈ subscribeOp (subscribeOp [] 0) 1 ∧ (1 : Nat) ∉ [(0 : Nat)] := by
  decide

/-- C9 (amended): handlers run in registration order; when none of them
throws, every subscribed handler is invoked exactly once; a throwing handler
aborts the iteration, so the handlers after it are not invoked and the
exception escapes `emit`. -/
theorem emit_order_and_abort (behaviorThrows : Nat → Bool) (hs pre post : List Nat) (h : Nat) :
    ((∀ x ∈ hs, behaviorThrows x = false) → emitRun behaviorThrows hs = (hs, false))
    ∧ (hs = pre ++ h :: post → (∀ x ∈ pre, behaviorThrows x = false) →
        behaviorThrows h = true → emitRun behaviorThrows hs = (pre ++ [h], true)) := by
  constructor
  · intro hok
    induction hs with
    | nil => rfl
    | cons x xs ih =>
      rw [emitRun, if_neg (by rw [hok x (List.mem_cons_self x xs)]; simp)]
      rw [ih (fun y hy => hok y (List.mem_cons_of_mem x hy))]
  · intro heq hpre hthrow
    subst heq
    induction pre with
    | nil =>
      rw [List.nil_append, emitRun, if_pos hthrow]
      rfl
    | cons x xs ih =>
      rw [List.cons_append, emitRun,
        if_neg (by rw [hpre x (List.mem_cons_self x _)]; simp)]
      rw [ih (fun y hy => hpre y (List.mem_cons_of_mem x hy))]
      rfl

/-! ## C6: renaming a directory -/

/-- C6: on a store holding only the directory `/d`, `rename('/d', '/e')`
fails with the NotFound error raised by the initial `readBinary` — the
`InvalidOperation` check for directories sits after that read and is
unreachable for a pure directory — and the store is unchanged by the failed
call. -/
theorem rename_directory_raises_notFound :
    statFs (mkdir initStore "/d" 0) "/d" = .ok ⟨0, true, false, 0⟩ ∧
    rename (mkdir initStore "/d" 0) "/d" "/e" 5 = .error .notFound ∧
    FsError.notFound ≠ FsError.invalidOperation := by
  refine ⟨rfl, rfl, ?_⟩
  intro h
  exact FsError.noConfusion h

/-! ## C8: ctime preservation across overwrites -/

/-- C8, counterexample: a record written at time 1 and overwritten through
`writeBinaryBatch` at time 5 has its `ctime` reset to 5 — the batch write
does not preserve `ctime` the way `writeFile`/`writeBinary` do. -/
theorem writeBinaryBatch_ctime_counterexample :
    (fileGet (writeFile initStore "/a/f" "x" 1) "/a/f").map (fun f => f.ctime) = some 1 ∧
    (fileGet (writeBinaryBatch (writeFile initStore "/a/f" "x" 1) [⟨"/a/f", [9]⟩] true 5)
        "/a/f").map (fun f => (f.ctime, f.mtime)) = some (5, 5) := by
  exact ⟨rfl, rfl⟩

theorem writeBinaryBatch_single_fileGet (st : IDBStore) (p : String) (bs : List Nat) (now : Nat) :
    ∃ r : StoredFile, fileGet (writeBinaryBatch st [⟨p, bs⟩] true now) (normalizePath p) = some r ∧
      r.ctime = now ∧ r.mtime = now := by
  simp only [writeBinaryBatch]
  rw [if_neg (by simp)]
  simp only [List.foldl_cons, List.foldl_nil]
  exact ⟨_, fileGet_filePut rfl, rfl, rfl⟩

/-- C8 (amended): overwriting through `writeFile` or `writeBinary` preserves
the record's `ctime` and stamps `mtime` with the write time, and file
records at other keys are untouched by either write (the implicit
parent-directory step can only add directory records); overwriting through
`writeBinaryBatch`, however, stamps both `mtime` and `ctime` with the write
time. -/
theorem overwrite_ctime_mtime (st : IDBStore) (p q c : String) (bs : List Nat) (now : Nat)
    (old : StoredFile) (h : fileGet st (normalizePath p) = some old) :
    (∃ r : StoredFile, fileGet (writeFile st p c now) (normalizePath p) = some r ∧
        r.ctime = old.ctime ∧ r.mtime = now)
    ∧ (∃ r : StoredFile, fileGet (writeBinary st p bs now) (normalizePath p) = some r ∧
        r.ctime = old.ctime ∧ r.mtime = now)
    ∧ (∃ r : StoredFile, fileGet (writeBinaryBatch st [⟨p, bs⟩] true now) (normalizePath p) = some r ∧
        r.ctime = now ∧ r.mtime = now)
    ∧ (normalizePath q ≠ normalizePath p →
        fileGet (writeFile st p c now) (normalizePath q) = fileGet st (normalizePath q) ∧
        fileGet (writeBinary st p bs now) (normalizePath q) = fileGet st (normalizePath q)) := by
  refine ⟨?_, ?_, writeBinaryBatch_single_fileGet st p bs now, ?_⟩
  · obtain ⟨r, hr, _, _, hm, hc⟩ := writeFile_fileGet st p c now
    exact ⟨r, hr, by rw [hc, h]; rfl, hm⟩
  · obtain ⟨r, hr, _, _, hm, hc⟩ := writeBinary_fileGet st p bs now
    exact ⟨r, hr, by rw [hc, h]; rfl, hm⟩
  · intro hq
    constructor
    · simp only [writeFile]
      rw [fileGet_filePut_ne hq]
      exact (fileGet_eq_of_files (writeFile_parent_files st (normalizePath p) now) _)
    · simp only [writeBinary]
      rw [fileGet_filePut_ne hq]
      exact (fileGet_eq_of_files (writeFile_parent_files st (normalizePath p) now) _)

/-! ## C1: mount-table invariants and longest-prefix resolution -/

def mountsSorted (ms : List MountPoint) : Prop :=
  List.Pairwise (fun a b => b.path.length ≤ a.path.length) ms

def mountsNodup (ms : List MountPoint) : Prop :=
  List.Pairwise (fun a b => a.path ≠ b.path) ms

theorem insertMount_perm (m : MountPoint) (l : List MountPoint) :
    List.Perm (insertMount m l) (m :: l) := by
  induction l with
  | nil => rfl
  | cons x xs ih =>
    rw [insertMount]
    split
    · rfl
    · exact (List.Perm.cons x ih).trans (List.Perm.swap m x xs)

theorem sortMounts_perm (l : List MountPoint) : List.Perm (sortMounts l) l := by
  have hgen : ∀ (l acc : List MountPoint),
      List.Perm (l.foldl (fun a m => insertMount m a) acc) (acc ++ l) := by
    intro l
    induction l with
    | nil => intro acc; simp
    | cons m ms ih =>
      intro acc
      rw [List.foldl_cons]
      refine ((ih (insertMount m acc)).trans ?_)
      refine ((insertMount_perm m acc).append_right ms).trans ?_
      exact (List.perm_middle).symm
  simpa using hgen l []

theorem insertMount_sorted {l : List MountPoint} (m : MountPoint)
    (hl : mountsSorted l) : mountsSorted (insertMount m l) := by
  induction l with
  | nil => exact List.pairwise_singleton _ m
  | cons x xs ih =>
    rw [insertMount]
    split
    · rename_i hlt
      refine List.Pairwise.cons ?_ hl
      intro y hy
      rcases List.mem_cons.mp hy with rfl | hy'
      · exact Nat.le_of_lt hlt
      · exact Nat.le_trans (List.rel_of_pairwise_cons hl hy') (Nat.le_of_lt hlt)
    · rename_i hge
      refine List.Pairwise.cons ?_ (ih (List.Pairwise.of_cons hl))
      intro y hy
      have hy2 := (insertMount_perm m xs).mem_iff.mp hy
      rcases List.mem_cons.mp hy2 with rfl | hy'
      · exact Nat.not_lt.mp hge
      · exact List.rel_of_pairwise_cons hl hy'

theorem sortMounts_sorted (l : List MountPoint) : mountsSorted (sortMounts l) := by
  have hgen : ∀ (l acc : List MountPoint), mountsSorted acc →
      mountsSorted (l.foldl (fun a m => insertMount m a) acc) := by
    intro l
    induction l with
    | nil => intro acc h; exact h
    | cons m ms ih =>
      intro acc h
      rw [List.foldl_cons]
      exact ih _ (insertMount_sorted m h)
  exact hgen l [] List.Pairwise.nil

theorem mountOp_nodup {ms : List MountPoint} (p : String) (b : Nat)
    (h : mountsNodup ms) : mountsNodup (mountOp ms p b) := by
  simp only [mountOp]
  have hperm := sortMounts_perm ((ms.filter (fun m => m.path ≠ normalizeMountPath p)) ++
    [⟨normalizeMountPath p, b⟩])
  rw [mountsNodup, List.Perm.pairwise_iff (fun hab e => hab e.symm) hperm, List.pairwise_append]
  refine ⟨List.Pairwise.sublist (List.filter_sublist ms) h, List.pairwise_singleton _ _, ?_⟩
  intro a ha b' hb
  rw [List.mem_singleton.mp hb]
  have := (List.mem_filter.mp ha).2
  simpa using this

theorem applyMountActions_invariants (acts : List MountAction) :
    mountsSorted (applyMountActions acts) ∧ mountsNodup (applyMountActions acts) := by
  have hgen : ∀ (acts : List MountAction) (ms : List MountPoint),
      mountsSorted ms → mountsNodup ms →
      mountsSorted (acts.foldl applyMountAction ms) ∧
        mountsNodup (acts.foldl applyMountAction ms) := by
    intro acts
    induction acts with
    | nil => intro ms h1 h2; exact ⟨h1, h2⟩
    | cons a rest ih =>
      intro ms h1 h2
      rw [List.foldl_cons]
      apply ih
      · cases a with
        | mount p b => exact sortMounts_sorted _
        | unmount p => exact List.Pairwise.sublist (List.filter_sublist ms) h1
      · cases a with
        | mount p b => exact mountOp_nodup p b h2
        | unmount p => exact List.Pairwise.sublist (List.filter_sublist ms) h2
  exact hgen acts [] List.Pairwise.nil List.Pairwise.nil

theorem find?_sorted_max {p : MountPoint → Bool} {ms : List MountPoint} {m : MountPoint}
    (hs : mountsSorted ms) (hf : ms.find? p = some m) :
    ∀ m' ∈ ms, p m' = true → m'.path.length ≤ m.path.length := by
  induction ms with
  | nil => simp [List.find?] at hf
  | cons x xs ih =>
    rw [List.find?] at hf
    cases hx : p x with
    | true =>
      rw [hx] at hf
      injection hf with hf
      subst hf
      intro m' hm' _
      rcases List.mem_cons.mp hm' with rfl | hm''
      · exact Nat.le_refl _
      · exact List.rel_of_pairwise_cons hs hm''
    | false =>
      rw [hx] at hf
      intro m' hm' hpm'
      rcases List.mem_cons.mp hm' with rfl | hm''
      · rw [hx] at hpm'; exact absurd hpm' (by simp)
      · exact ih (List.Pairwise.of_cons hs) hf m' hm'' hpm'

/-- C1: every mount/unmount sequence leaves the table with at most one entry
per mount path and sorted by mount-path length descending; resolution picks
a mount whose path length is maximal among all structural matches; and in
particular mounting `/a` and `/a/b` in either order resolves `/a/b/x` to the
`/a/b` backend. -/
theorem mount_table_sorted_unique_longest (acts : List MountAction) :
    mountsSorted (applyMountActions acts) ∧ mountsNodup (applyMountActions acts) ∧
    (∀ (p : String) (m : MountPoint) (rel : String),
        getBackendForPath (applyMountActions acts) p = some (m, rel) →
        ∀ m' ∈ applyMountActions acts,
          mountMatches (serviceNormalizePath p).data m' = true →
          m'.path.length ≤ m.path.length) ∧
    (getBackendForPath (applyMountActions [.mount "/a" 1, .mount "/a/b" 2]) "/a/b/x").map
        (fun r => r.1.backendId) = some 2 ∧
    (getBackendForPath (applyMountActions [.mount "/a/b" 2, .mount "/a" 1]) "/a/b/x").map
        (fun r => r.1.backendId) = some 2 := by
  obtain ⟨h1, h2⟩ := applyMountActions_invariants acts
  refine ⟨h1, h2, ?_, rfl, rfl⟩
  intro p m rel hres m' hm' hmatch
  simp only [getBackendForPath] at hres
  rcases hf : (applyMountActions acts).find?
      (fun mp => mountMatches (serviceNormalizePath p).data mp) with _ | m0
  · rw [hf] at hres; exact absurd hres (by simp)
  · rw [hf] at hres
    simp only [Option.some_inj, Prod.mk.injEq] at hres
    obtain ⟨rfl, _⟩ := hres
    exact find?_sorted_max h1 hf m' hm' hmatch

/-! ## C4: flat-store invariants

The spec's reachable-state invariants for the flat store: record keys are
canonical paths (over characters below the `'￿'` range bound), keys are
unique per collection, every proper ancestor of a record is present as a
directory record (`mkdir`'s full-chain invariant), and no path is both a
file and a directory (the spec's partition invariant, §3). -/

/-- Canonical non-root record key over characters below U+FFFF. -/
def keyOkB (k : Chars) : Bool :=
  (k.head? == some '/') && decide (2 ≤ k.length) && noDoubleB k &&
    !(k.getLast? == some '/') && k.all (fun c => decide (c.toNat < 65535))

/-- The proper ancestors of a canonical key: every prefix that is followed
by a `'/'`. -/
def properAncestors (k : Chars) : List Chars :=
  (List.range k.length).filterMap (fun i =>
    if 0 < i ∧ (k.drop i).head? = some '/' then some (k.take i) else none)

def nodupKeysF : List StoredFile → Bool
  | [] => true
  | f :: r => r.all (fun g => g.path != f.path) && nodupKeysF r

def nodupKeysD : List StoredDirectory → Bool
  | [] => true
  | d :: r => r.all (fun g => g.path != d.path) && nodupKeysD r

def closureB (st : IDBStore) : Bool :=
  st.files.all (fun f => (properAncestors f.path.data).all (fun a => (dirGet st ⟨a⟩).isSome)) &&
  st.dirs.all (fun d => (properAncestors d.path.data).all (fun a => (dirGet st ⟨a⟩).isSome))

def partitionB (st : IDBStore) : Bool :=
  st.files.all (fun f => (dirGet st f.path).isNone)

def wfStoreB (st : IDBStore) : Bool :=
  st.files.all (fun f => keyOkB f.path.data) && st.dirs.all (fun d => keyOkB d.path.data) &&
  nodupKeysF st.files && nodupKeysD st.dirs && closureB st && partitionB st

/-- `k` is the directory `t` itself or lies strictly under it. -/
def underEq (t k : String) : Prop := k = t ∨ (t.data ++ ['/']) <+: k.data

instance (t k : String) : Decidable (underEq t k) := by
  unfold underEq
  infer_instance

/-! ### Basic consequences -/

theorem string_mk_data (s : String) : (⟨s.data⟩ : String) = s := rfl

theorem wf_file_keyOk {st : IDBStore} {f : StoredFile} (hwf : wfStoreB st = true)
    (hf : f ∈ st.files) : keyOkB f.path.data = true := by
  unfold wfStoreB at hwf
  simp only [Bool.and_eq_true, List.all_eq_true] at hwf
  exact hwf.1.1.1.1.1 f hf

theorem wf_dir_keyOk {st : IDBStore} {d : StoredDirectory} (hwf : wfStoreB st = true)
    (hd : d ∈ st.dirs) : keyOkB d.path.data = true := by
  unfold wfStoreB at hwf
  simp only [Bool.and_eq_true, List.all_eq_true] at hwf
  exact hwf.1.1.1.1.2 d hd

theorem wf_nodupF {st : IDBStore} (hwf : wfStoreB st = true) : nodupKeysF st.files = true := by
  unfold wfStoreB at hwf
  simp only [Bool.and_eq_true] at hwf
  exact hwf.1.1.1.2

theorem wf_closure_file {st : IDBStore} {f : StoredFile} {a : Chars} (hwf : wfStoreB st = true)
    (hf : f ∈ st.files) (ha : a ∈ properAncestors f.path.data) :
    (dirGet st ⟨a⟩).isSome = true := by
  unfold wfStoreB closureB at hwf
  simp only [Bool.and_eq_true, List.all_eq_true] at hwf
  exact hwf.1.2.1 f hf a ha

theorem wf_closure_dir {st : IDBStore} {d : StoredDirectory} {a : Chars} (hwf : wfStoreB st = true)
    (hd : d ∈ st.dirs) (ha : a ∈ properAncestors d.path.data) :
    (dirGet st ⟨a⟩).isSome = true := by
  unfold wfStoreB closureB at hwf
  simp only [Bool.and_eq_true, List.all_eq_true] at hwf
  exact hwf.1.2.2 d hd a ha

theorem wf_partition {st : IDBStore} {f : StoredFile} (hwf : wfStoreB st = true)
    (hf : f ∈ st.files) : dirGet st f.path = none := by
  unfold wfStoreB partitionB at hwf
  simp only [Bool.and_eq_true, List.all_eq_true] at hwf
  have := hwf.2 f hf
  simpa [Option.isNone_iff_eq_none] using this

theorem keyOk_head {k : Chars} (h : keyOkB k = true) : k.head? = some '/' := by
  unfold keyOkB at h
  simp only [Bool.and_eq_true, beq_iff_eq] at h
  exact h.1.1.1.1

theorem keyOk_len {k : Chars} (h : keyOkB k = true) : 2 ≤ k.length := by
  unfold keyOkB at h
  simp only [Bool.and_eq_true, decide_eq_true_eq] at h
  exact h.1.1.1.2

theorem keyOk_noDouble {k : Chars} (h : keyOkB k = true) : noDoubleB k = true := by
  unfold keyOkB at h
  simp only [Bool.and_eq_true] at h
  exact h.1.1.2

theorem keyOk_last {k : Chars} (h : keyOkB k = true) : k.getLast? ≠ some '/' := by
  unfold keyOkB at h
  simp only [Bool.and_eq_true, Bool.not_eq_true', beq_eq_false_iff_ne] at h
  exact h.1.2

theorem keyOk_chars {k : Chars} (h : keyOkB k = true) : ∀ c ∈ k, c.toNat < 65535 := by
  unfold keyOkB at h
  simp only [Bool.and_eq_true, List.all_eq_true, decide_eq_true_eq] at h
  exact h.2

theorem normalizePath_of_keyOk {s : String} (h : keyOkB s.data = true) :
    normalizePath s = s := by
  unfold normalizePath
  rw [bNormChars_canonical s.data (keyOk_head h) (Or.inl (keyOk_last h)) (keyOk_noDouble h)]

/-! ### Ancestor-split lemmas -/

theorem properAncestors_mem_of_split (pre rest : Chars) (hpre : pre ≠ []) :
    pre ∈ properAncestors (pre ++ '/' :: rest) := by
  unfold properAncestors
  rw [List.mem_filterMap]
  refine ⟨pre.length, ?_, ?_⟩
  · rw [List.mem_range, List.length_append]
    simp
  · rw [if_pos ⟨List.length_pos.mpr hpre, by rw [List.drop_left]; rfl⟩, List.take_left]

theorem properAncestors_split {k a : Chars} (h : a ∈ properAncestors k) :
    a ≠ [] ∧ ∃ rest, k = a ++ '/' :: rest := by
  unfold properAncestors at h
  rw [List.mem_filterMap] at h
  obtain ⟨i, hi, hcond⟩ := h
  rw [List.mem_range] at hi
  by_cases hc : 0 < i ∧ (k.drop i).head? = some '/'
  · rw [if_pos hc] at hcond
    injection hcond with hcond
    subst hcond
    constructor
    · intro he
      have : (k.take i).length = i := by
        rw [List.length_take]
        omega
      rw [he] at this
      simp at this
      omega
    · rcases hd : k.drop i with _ | ⟨c, t⟩
      · rw [hd] at hc; simp at hc
      · have hc' : c = '/' := by
          rw [hd] at hc
          simpa using hc.2
        subst hc'
        exact ⟨t, by conv_lhs => rw [← List.take_append_drop i k, hd]⟩
  · rw [if_neg hc] at hcond
    exact absurd hcond (by simp)

theorem underEq_of_ancestor {t k : String} {a : Chars}
    (ha : a ∈ properAncestors k.data) (h : underEq t ⟨a⟩) : underEq t k := by
  obtain ⟨hne, rest, hsplit⟩ := properAncestors_split ha
  right
  rcases h with h | h
  · have hta : t.data = a := congrArg String.data h.symm
    rw [hsplit, hta]
    exact ⟨rest, by simp⟩
  · have h' : (t.data ++ ['/']) <+: a := h
    have h2 : a <+: k.data := ⟨'/' :: rest, hsplit.symm⟩
    exact h'.trans h2

/-! ### Record lookup bridges -/

theorem mem_of_fileGet_some {st : IDBStore} {k : String} {f : StoredFile}
    (h : fileGet st k = some f) : f ∈ st.files ∧ f.path = k := by
  unfold fileGet at h
  refine ⟨List.mem_of_find?_eq_some h, ?_⟩
  have := List.find?_some h
  simpa using this

theorem mem_of_dirGet_some {st : IDBStore} {k : String} {d : StoredDirectory}
    (h : dirGet st k = some d) : d ∈ st.dirs ∧ d.path = k := by
  unfold dirGet at h
  refine ⟨List.mem_of_find?_eq_some h, ?_⟩
  have := List.find?_some h
  simpa using this

theorem fileGet_isSome_of_mem {st : IDBStore} {f : StoredFile} (hf : f ∈ st.files) :
    (fileGet st f.path).isSome = true := by
  unfold fileGet
  rw [List.find?_isSome]
  exact ⟨f, hf, by simp⟩

theorem dirGet_isSome_of_mem {st : IDBStore} {d : StoredDirectory} (hd : d ∈ st.dirs) :
    (dirGet st d.path).isSome = true := by
  unfold dirGet
  rw [List.find?_isSome]
  exact ⟨d, hd, by simp⟩

theorem fileGet_none_mono {st st' : IDBStore} (h : List.Sublist st'.files st.files) {k : String}
    (hn : fileGet st k = none) : fileGet st' k = none := by
  unfold fileGet at *
  rw [List.find?_eq_none] at *
  intro x hx
  exact hn x (h.subset hx)

theorem dirGet_none_mono {st st' : IDBStore} (h : List.Sublist st'.dirs st.dirs) {k : String}
    (hn : dirGet st k = none) : dirGet st' k = none := by
  unfold dirGet at *
  rw [List.find?_eq_none] at *
  intro x hx
  exact hn x (h.subset hx)

theorem fileGet_ne_none_of_mem {st : IDBStore} {f : StoredFile} (hf : f ∈ st.files) :
    fileGet st f.path ≠ none := by
  intro h
  have := fileGet_isSome_of_mem hf
  rw [h] at this
  simp at this

theorem dirGet_ne_none_of_mem {st : IDBStore} {d : StoredDirectory} (hd : d ∈ st.dirs) :
    dirGet st d.path ≠ none := by
  intro h
  have := dirGet_isSome_of_mem hd
  rw [h] at this
  simp at this

/-! ### `deleteFile` / `dirDel` specifications -/

theorem deleteFile_dirs (st : IDBStore) (p : String) : (deleteFile st p).dirs = st.dirs := rfl

theorem deleteFile_files_sublist (st : IDBStore) (p : String) :
    List.Sublist (deleteFile st p).files st.files := List.filter_sublist st.files

theorem deleteFile_fileGet_self (st : IDBStore) (p : String) :
    fileGet (deleteFile st p) (normalizePath p) = none := by
  unfold deleteFile fileGet fileDel
  apply find?_eq_none_of_all
  intro x hx
  have := (List.mem_filter.mp hx).2
  simp only [decide_eq_true_eq] at this
  exact beq_eq_false_iff_ne.mpr this

theorem deleteFile_fileGet_ne (st : IDBStore) (p : String) {k : String}
    (hk : k ≠ normalizePath p) : fileGet (deleteFile st p) k = fileGet st k := by
  unfold deleteFile fileGet fileDel
  exact find?_filter_ne st.files (fun g => g.path) k (normalizePath p) hk

theorem dirDel_sublist (ds : List StoredDirectory) (k : String) : List.Sublist (dirDel ds k) ds :=
  List.filter_sublist ds

theorem dirDel_dirGet_self (fs : List StoredFile) (ds : List StoredDirectory) (k : String) :
    dirGet ⟨fs, dirDel ds k⟩ k = none := by
  unfold dirGet dirDel
  apply find?_eq_none_of_all
  intro x hx
  have := (List.mem_filter.mp hx).2
  simp only [decide_eq_true_eq] at this
  exact beq_eq_false_iff_ne.mpr this

theorem dirDel_dirGet_ne (fs : List StoredFile) (ds : List StoredDirectory) (k : String)
    {k' : String} (hk : k' ≠ k) : dirGet ⟨fs, dirDel ds k⟩ k' = ds.find? (fun g => g.path == k') := by
  unfold dirGet dirDel
  exact find?_filter_ne ds (fun g => g.path) k' k hk

/-! ### Well-formedness is preserved by subtree removal -/

theorem nodupKeysF_sublist {l l' : List StoredFile} (h : List.Sublist l' l)
    (hn : nodupKeysF l = true) : nodupKeysF l' = true := by
  induction h with
  | slnil => rfl
  | cons a h ih =>
    rw [nodupKeysF] at hn
    simp only [Bool.and_eq_true] at hn
    exact ih hn.2
  | cons₂ a h ih =>
    rw [nodupKeysF] at hn ⊢
    simp only [Bool.and_eq_true, List.all_eq_true] at hn ⊢
    exact ⟨fun g hg => hn.1 g (h.subset hg), ih hn.2⟩

theorem nodupKeysD_sublist {l l' : List StoredDirectory} (h : List.Sublist l' l)
    (hn : nodupKeysD l = true) : nodupKeysD l' = true := by
  induction h with
  | slnil => rfl
  | cons a h ih =>
    rw [nodupKeysD] at hn
    simp only [Bool.and_eq_true] at hn
    exact ih hn.2
  | cons₂ a h ih =>
    rw [nodupKeysD] at hn ⊢
    simp only [Bool.and_eq_true, List.all_eq_true] at hn ⊢
    exact ⟨fun g hg => hn.1 g (h.subset hg), ih hn.2⟩

theorem wfStoreB_of_removal {st st' : IDBStore}
    (hwf : wfStoreB st = true)
    (hf : List.Sublist st'.files st.files) (hd : List.Sublist st'.dirs st.dirs)
    (hcl : ∀ (k : String) (a : Chars), a ∈ properAncestors k.data →
      ((∃ f ∈ st'.files, f.path = k) ∨ (∃ d ∈ st'.dirs, d.path = k)) →
      (dirGet st' ⟨a⟩).isSome = true) :
    wfStoreB st' = true := by
  unfold wfStoreB
  simp only [Bool.and_eq_true, List.all_eq_true]
  refine ⟨⟨⟨⟨⟨?_, ?_⟩, ?_⟩, ?_⟩, ?_⟩, ?_⟩
  · intro f hfm
    exact wf_file_keyOk hwf (hf.subset hfm)
  · intro d hdm
    exact wf_dir_keyOk hwf (hd.subset hdm)
  · exact nodupKeysF_sublist hf (wf_nodupF hwf)
  · unfold wfStoreB at hwf
    simp only [Bool.and_eq_true] at hwf
    exact nodupKeysD_sublist hd hwf.1.1.2
  · unfold closureB
    simp only [Bool.and_eq_true, List.all_eq_true]
    constructor
    · intro f hfm a ha
      exact hcl f.path a ha (Or.inl ⟨f, hfm, rfl⟩)
    · intro d hdm a ha
      exact hcl d.path a ha (Or.inr ⟨d, hdm, rfl⟩)
  · unfold partitionB
    simp only [List.all_eq_true]
    intro f hfm
    have h1 : dirGet st f.path = none := wf_partition hwf (hf.subset hfm)
    have := dirGet_none_mono hd h1
    simp [Option.isNone_iff_eq_none, this]

theorem closure_transfer {s s' : IDBStore} (t : String)
    (hwf : wfStoreB s = true)
    (hfsub : List.Sublist s'.files s.files) (hdsub : List.Sublist s'.dirs s.dirs)
    (hrem : ∀ k : String, underEq t k → fileGet s' k = none ∧ dirGet s' k = none)
    (hfr : ∀ k : String, ¬ underEq t k → fileGet s' k = fileGet s k ∧ dirGet s' k = dirGet s k) :
    wfStoreB s' = true := by
  apply wfStoreB_of_removal hwf hfsub hdsub
  intro k a ha hk
  by_cases hu : underEq t ⟨a⟩
  · exfalso
    have huk : underEq t k := underEq_of_ancestor ha hu
    obtain ⟨h1, h2⟩ := hrem k huk
    rcases hk with ⟨f, hfm, hfp⟩ | ⟨d, hdm, hdp⟩
    · exact fileGet_ne_none_of_mem hfm (by rw [hfp]; exact h1)
    · exact dirGet_ne_none_of_mem hdm (by rw [hdp]; exact h2)
  · rw [(hfr ⟨a⟩ hu).2]
    rcases hk with ⟨f, hfm, hfp⟩ | ⟨d, hdm, hdp⟩
    · exact wf_closure_file hwf (hfsub.subset hfm) (by rw [hfp]; exact ha)
    · exact wf_closure_dir hwf (hdsub.subset hdm) (by rw [hdp]; exact ha)

theorem wf_deleteFile {st : IDBStore} (p : String) (hwf : wfStoreB st = true) :
    wfStoreB (deleteFile st p) = true := by
  apply wfStoreB_of_removal hwf (deleteFile_files_sublist st p)
      (by rw [deleteFile_dirs])
  intro k a ha hk
  have : dirGet (deleteFile st p) ⟨a⟩ = dirGet st ⟨a⟩ :=
    dirGet_eq_of_dirs (deleteFile_dirs st p) ⟨a⟩
  rw [this]
  rcases hk with ⟨f, hfm, hfp⟩ | ⟨d, hdm, hdp⟩
  · exact wf_closure_file hwf ((deleteFile_files_sublist st p).subset hfm) (by rw [hfp]; exact ha)
  · exact wf_closure_dir hwf (by rw [← deleteFile_dirs st p]; exact hdm) (by rw [hdp]; exact ha)

/-! ### `takeWhile`/`dropWhile` helpers -/

theorem takeWhile_eq_self_of_all {l : Chars} (h : l.all (fun c => c != '/') = true) :
    l.takeWhile (fun c => c ≠ '/') = l := by
  induction l with
  | nil => rfl
  | cons c cs ih =>
    simp only [List.all_cons, Bool.and_eq_true, bne_iff_ne] at h
    rw [List.takeWhile_cons, if_pos (by simpa using h.1), ih h.2]

theorem dropWhile_head_slash (l : Chars) :
    ∀ c t, l.dropWhile (fun c => c ≠ '/') = c :: t → c = '/' := by
  induction l with
  | nil => intro c t h; simp [List.dropWhile] at h
  | cons a as ih =>
    intro c t h
    rw [List.dropWhile_cons] at h
    by_cases ha : a ≠ '/'
    · rw [if_pos (by simpa using ha)] at h
      exact ih c t h
    · rw [if_neg (by simpa using ha)] at h
      injection h with h1 _
      rw [← h1]
      exact Decidable.not_not.mp ha

theorem takeWhile_all_noslash (l : Chars) :
    (l.takeWhile (fun c => c ≠ '/')).all (fun c => c != '/') = true := by
  rw [List.all_eq_true]
  intro x hx
  have := List.mem_takeWhile_imp hx
  simpa using this

theorem string_mk_inj {a b : Chars} (h : (⟨a⟩ : String) = ⟨b⟩) : a = b :=
  congrArg String.data h

/-! ### Soundness and completeness of the two `readdir` scans -/

theorem childName_eq_of_direct {pref kd : Chars} (h : isDirectChild pref kd = true) :
    childName pref kd = kd.drop pref.length :=
  takeWhile_eq_self_of_all h

theorem fileScan_sound (pref : Chars) :
    ∀ (files : List StoredFile) (seen : List String) (e : FileEntry),
      e ∈ (fileScan pref files seen).1 →
      e.isDirectory = false ∧ ∃ f ∈ files, e.path = f.path ∧
        inKeyRange pref f.path.data = true ∧
        childName pref f.path.data ≠ [] ∧
        isDirectChild pref f.path.data = true ∧
        e.name = ⟨childName pref f.path.data⟩ := by
  intro files
  induction files with
  | nil => intro seen e he; simp [fileScan] at he
  | cons f rest ih =>
    intro seen e he
    rw [fileScan] at he
    split at he
    · rename_i hrange
      split at he
      · rename_i hcond
        obtain ⟨hne, hseen, hall⟩ := hcond
        simp only [List.mem_cons] at he
        rcases he with rfl | he'
        · exact ⟨rfl, f, List.mem_cons_self f rest, rfl, hrange, hne, hall, rfl⟩
        · obtain ⟨h1, g, hg, h2⟩ := ih _ e he'
          exact ⟨h1, g, List.mem_cons_of_mem f hg, h2⟩
      · obtain ⟨h1, g, hg, h2⟩ := ih _ e he
        exact ⟨h1, g, List.mem_cons_of_mem f hg, h2⟩
    · obtain ⟨h1, g, hg, h2⟩ := ih _ e he
      exact ⟨h1, g, List.mem_cons_of_mem f hg, h2⟩

theorem fileScan_complete (pref : Chars) :
    ∀ (files : List StoredFile) (seen : List String) (f : StoredFile),
      nodupKeysF files = true → f ∈ files →
      inKeyRange pref f.path.data = true →
      isDirectChild pref f.path.data = true →
      childName pref f.path.data ≠ [] →
      (⟨childName pref f.path.data⟩ : String) ∉ seen →
      (⟨⟨childName pref f.path.data⟩, f.path, false⟩ : FileEntry) ∈ (fileScan pref files seen).1 := by
  intro files
  induction files with
  | nil => intro seen f _ hf; exact absurd hf (List.not_mem_nil f)
  | cons g rest ih =>
    intro seen f hnd hf hr hdir hne hseen
    rw [nodupKeysF] at hnd
    simp only [Bool.and_eq_true, List.all_eq_true] at hnd
    rw [fileScan]
    by_cases hgr : inKeyRange pref g.path.data = true
    · rw [if_pos hgr]
      by_cases hcond : childName pref g.path.data ≠ [] ∧
          (⟨childName pref g.path.data⟩ : String) ∉ seen ∧
          isDirectChild pref g.path.data = true
      · rw [if_pos hcond]
        by_cases hfg : f = g
        · subst hfg
          exact List.mem_cons_self _ _
        · have hfrest : f ∈ rest := by
            rcases List.mem_cons.mp hf with rfl | h
            · exact absurd rfl hfg
            · exact h
          have hname_ne : (⟨childName pref f.path.data⟩ : String) ≠
              ⟨childName pref g.path.data⟩ := by
            intro he
            have hdata := string_mk_inj he
            rw [childName_eq_of_direct hdir, childName_eq_of_direct hcond.2.2] at hdata
            have hfd : pref ++ f.path.data.drop pref.length = f.path.data :=
              isPrefix_drop_append (inKeyRange_isPrefix pref _ hr)
            have hgd : pref ++ g.path.data.drop pref.length = g.path.data :=
              isPrefix_drop_append (inKeyRange_isPrefix pref _ hgr)
            have hdd : f.path.data = g.path.data := by
              rw [← hfd, ← hgd, hdata]
            have hpaths : f.path = g.path := congrArg String.mk hdd
            have := hnd.1 f hfrest
            simp [hpaths] at this
          apply List.mem_cons_of_mem
          exact ih _ f hnd.2 hfrest hr hdir hne (by
            intro hmem
            rcases List.mem_cons.mp hmem with h | h
            · exact hname_ne h
            · exact hseen h)
      · rw [if_neg hcond]
        have hfrest : f ∈ rest := by
          rcases List.mem_cons.mp hf with rfl | h
          · exact absurd ⟨hne, hseen, hdir⟩ hcond
          · exact h
        exact ih _ f hnd.2 hfrest hr hdir hne hseen
    · rw [if_neg hgr]
      have hfrest : f ∈ rest := by
        rcases List.mem_cons.mp hf with rfl | h
        · exact absurd hr hgr
        · exact h
      exact ih _ f hnd.2 hfrest hr hdir hne hseen

theorem fileScan_seen (pref : Chars) :
    ∀ (files : List StoredFile) (seen : List String) (x : String),
      x ∈ (fileScan pref files seen).2 →
      x ∈ seen ∨ ∃ f ∈ files, f.path.data = pref ++ x.data := by
  intro files
  induction files with
  | nil => intro seen x hx; exact Or.inl hx
  | cons g rest ih =>
    intro seen x hx
    rw [fileScan] at hx
    split at hx
    · rename_i hrange
      split at hx
      · rename_i hcond
        rcases ih _ x hx with hx' | ⟨f, hf, hfd⟩
        · rcases List.mem_cons.mp hx' with rfl | hx''
          · right
            refine ⟨g, List.mem_cons_self g rest, ?_⟩
            have hxd : (⟨childName pref g.path.data⟩ : String).data =
                g.path.data.drop pref.length := childName_eq_of_direct hcond.2.2
            rw [hxd]
            exact (isPrefix_drop_append (inKeyRange_isPrefix pref _ hrange)).symm
          · exact Or.inl hx''
        · exact Or.inr ⟨f, List.mem_cons_of_mem g hf, hfd⟩
      · rcases ih _ x hx with hx' | ⟨f, hf, hfd⟩
        · exact Or.inl hx'
        · exact Or.inr ⟨f, List.mem_cons_of_mem g hf, hfd⟩
    · rcases ih _ x hx with hx' | ⟨f, hf, hfd⟩
      · exact Or.inl hx'
      · exact Or.inr ⟨f, List.mem_cons_of_mem g hf, hfd⟩

theorem fileScan_seen_entry (pref : Chars) :
    ∀ (files : List StoredFile) (seen : List String) (x : String),
      x ∈ (fileScan pref files seen).2 →
      x ∈ seen ∨ ∃ e ∈ (fileScan pref files seen).1, e.name = x := by
  intro files
  induction files with
  | nil => intro seen x hx; exact Or.inl hx
  | cons g rest ih =>
    intro seen x hx
    rw [fileScan] at hx
    rw [fileScan]
    split at hx
    · rename_i hrange
      rw [if_pos hrange]
      split at hx
      · rename_i hcond
        rw [if_pos hcond]
        rcases ih _ x hx with hx' | ⟨e, he, hen⟩
        · rcases List.mem_cons.mp hx' with hxg | hxs
          · exact Or.inr ⟨_, List.mem_cons_self _ _, hxg.symm⟩
          · exact Or.inl hxs
        · exact Or.inr ⟨e, List.mem_cons_of_mem _ he, hen⟩
      · rename_i hcond
        rw [if_neg hcond]
        exact ih _ x hx
    · rename_i hrange
      rw [if_neg hrange]
      exact ih _ x hx

theorem dirScan_sound (n pref : Chars) :
    ∀ (dirs : List StoredDirectory) (seen : List String) (e : FileEntry),
      e ∈ dirScan n pref dirs seen →
      e.isDirectory = true ∧ e.path = ⟨pref ++ e.name.data⟩ ∧ e.name.data ≠ [] ∧
      e.name.data.all (fun c => c != '/') = true ∧
      ∃ d ∈ dirs, inKeyRange pref d.path.data = true ∧ d.path.data ≠ n ∧
        e.name.data = childName pref d.path.data := by
  intro dirs
  induction dirs with
  | nil => intro seen e he; simp [dirScan] at he
  | cons d rest ih =>
    intro seen e he
    rw [dirScan] at he
    split at he
    · rename_i hrange
      split at he
      · rename_i hcond
        simp only [List.mem_cons] at he
        rcases he with rfl | he'
        · refine ⟨rfl, rfl, hcond.1, ?_, d, List.mem_cons_self d rest, hrange.1, hrange.2, rfl⟩
          show (childName pref d.path.data).all (fun c => c != '/') = true
          exact takeWhile_all_noslash _
        · obtain ⟨h1, h2, h3, h4, g, hg, h5⟩ := ih _ e he'
          exact ⟨h1, h2, h3, h4, g, List.mem_cons_of_mem d hg, h5⟩
      · obtain ⟨h1, h2, h3, h4, g, hg, h5⟩ := ih _ e he
        exact ⟨h1, h2, h3, h4, g, List.mem_cons_of_mem d hg, h5⟩
    · obtain ⟨h1, h2, h3, h4, g, hg, h5⟩ := ih _ e he
      exact ⟨h1, h2, h3, h4, g, List.mem_cons_of_mem d hg, h5⟩

theorem dirScan_complete (n pref : Chars) :
    ∀ (dirs : List StoredDirectory) (seen : List String) (d : StoredDirectory),
      d ∈ dirs → inKeyRange pref d.path.data = true → d.path.data ≠ n →
      childName pref d.path.data ≠ [] →
      (∃ e ∈ dirScan n pref dirs seen,
         e.name = ⟨childName pref d.path.data⟩ ∧
         e.path = ⟨pref ++ childName pref d.path.data⟩ ∧
         e.isDirectory = true)
      ∨ (⟨childName pref d.path.data⟩ : String) ∈ seen := by
  intro dirs
  induction dirs with
  | nil => intro seen d hd; exact absurd hd (List.not_mem_nil d)
  | cons g rest ih =>
    intro seen d hd hr hne hnm
    rw [dirScan]
    by_cases hgr : inKeyRange pref g.path.data = true ∧ g.path.data ≠ n
    · rw [if_pos hgr]
      by_cases hcond : childName pref g.path.data ≠ [] ∧
          (⟨childName pref g.path.data⟩ : String) ∉ seen
      · rw [if_pos hcond]
        by_cases hsame : childName pref g.path.data = childName pref d.path.data
        · left
          refine ⟨_, List.mem_cons_self _ _, ?_, ?_, rfl⟩
          · rw [hsame]
          · rw [hsame]
        · have hdrest : d ∈ rest := by
            rcases List.mem_cons.mp hd with rfl | h
            · exact absurd rfl hsame
            · exact h
          rcases ih _ d hdrest hr hne hnm with ⟨e, hemem, he⟩ | hseen'
          · exact Or.inl ⟨e, List.mem_cons_of_mem _ hemem, he⟩
          · rcases List.mem_cons.mp hseen' with he | hseen''
            · exact absurd (string_mk_inj he).symm hsame
            · exact Or.inr hseen''
      · rw [if_neg hcond]
        by_cases hdg : d = g
        · subst hdg
          right
          by_cases hin : (⟨childName pref d.path.data⟩ : String) ∈ seen
          · exact hin
          · exact absurd ⟨hnm, hin⟩ hcond
        · have hdrest : d ∈ rest := by
            rcases List.mem_cons.mp hd with rfl | h
            · exact absurd rfl hdg
            · exact h
          exact ih _ d hdrest hr hne hnm
    · rw [if_neg hgr]
      have hdrest : d ∈ rest := by
        rcases List.mem_cons.mp hd with rfl | h
        · exact absurd ⟨hr, hne⟩ hgr
        · exact h
      exact ih _ d hdrest hr hne hnm

/-! ### Sorting is a permutation; membership in `readdir` output -/

theorem insertEntry_perm (e : FileEntry) (l : List FileEntry) :
    List.Perm (insertEntry e l) (e :: l) := by
  induction l with
  | nil => rfl
  | cons x xs ih =>
    rw [insertEntry]
    split
    · rfl
    · exact (List.Perm.cons x ih).trans (List.Perm.swap e x xs)

theorem sortEntries_perm (l : List FileEntry) : List.Perm (sortEntries l) l := by
  have hgen : ∀ (l acc : List FileEntry),
      List.Perm (l.foldl (fun a e => insertEntry e a) acc) (acc ++ l) := by
    intro l
    induction l with
    | nil => intro acc; simp
    | cons e es ih =>
      intro acc
      rw [List.foldl_cons]
      refine ((ih (insertEntry e acc)).trans ?_)
      refine ((insertEntry_perm e acc).append_right es).trans ?_
      exact (List.perm_middle).symm
  simpa using hgen l []

theorem readdirEntries_mem (st : IDBStore) (p : String) (e : FileEntry) :
    e ∈ readdirEntries st p ↔
      e ∈ (fileScan (prefOf (normalizePath p)) st.files []).1 ∨
      e ∈ dirScan (normalizePath p).data (prefOf (normalizePath p)) st.dirs
            (fileScan (prefOf (normalizePath p)) st.files []).2 := by
  simp only [readdirEntries]
  rw [(sortEntries_perm _).mem_iff, List.mem_append]

/-! ### Canonical-key helpers for entries -/

theorem noDoubleB_tail {a : Char} {l : Chars} (h : noDoubleB (a :: l) = true) :
    noDoubleB l = true := by
  cases l with
  | nil => rfl
  | cons b bs =>
    rw [noDoubleB] at h
    simp only [Bool.and_eq_true] at h
    exact h.2

theorem noDouble_mid {rest : Chars} :
    ∀ xs : Chars, noDoubleB (xs ++ '/' :: rest) = true → rest.head? ≠ some '/' := by
  intro xs
  induction xs with
  | nil =>
    intro h
    cases rest with
    | nil => simp
    | cons c t =>
      rw [List.nil_append, noDoubleB] at h
      simp only [Bool.and_eq_true] at h
      have h1 := h.1
      intro he
      have hc : c = '/' := by simpa using he
      rw [hc] at h1
      simp at h1
  | cons x xs ih =>
    intro h
    exact ih (noDoubleB_tail (by rwa [List.cons_append] at h))

theorem mem_of_getLast?_eq {l : Chars} {a : Char} (h : l.getLast? = some a) : a ∈ l := by
  induction l with
  | nil => simp at h
  | cons x xs ih =>
    cases xs with
    | nil =>
      simp only [List.getLast?_singleton, Option.some_inj] at h
      simp [h]
    | cons y ys =>
      rw [List.getLast?_cons_cons] at h
      exact List.mem_cons_of_mem x (ih h)

/-- A canonical non-root key extended by a slash and a non-empty slash-free
segment is again a canonical non-root key. -/
theorem keyOk_child {n nm : Chars} (hn : keyOkB n = true) (hne : nm ≠ [])
    (hnoslash : nm.all (fun c => c != '/') = true)
    (hchars : ∀ c ∈ nm, c.toNat < 65535) :
    keyOkB (n ++ '/' :: nm) = true := by
  obtain ⟨n0, ns, rfl⟩ : ∃ n0 ns, n = n0 :: ns := by
    cases n with
    | nil => exact absurd (keyOk_len hn) (by simp)
    | cons n0 ns => exact ⟨n0, ns, rfl⟩
  obtain ⟨m0, ms, rfl⟩ : ∃ m0 ms, nm = m0 :: ms := by
    cases nm with
    | nil => exact absurd rfl hne
    | cons m0 ms => exact ⟨m0, ms, rfl⟩
  have hnoslash' : ∀ c ∈ m0 :: ms, c ≠ '/' := by
    intro c hc
    have := List.all_eq_true.mp hnoslash c hc
    simpa using this
  unfold keyOkB
  simp only [Bool.and_eq_true, beq_iff_eq, decide_eq_true_eq, Bool.not_eq_true',
    beq_eq_false_iff_ne, List.all_eq_true]
  refine ⟨⟨⟨⟨?_, ?_⟩, ?_⟩, ?_⟩, ?_⟩
  · have := keyOk_head hn
    simpa using this
  · simp
    omega
  · apply noDoubleB_append (keyOk_noDouble hn)
    · rw [noDoubleB]
      simp only [Bool.and_eq_true]
      constructor
      · have := hnoslash' m0 (List.mem_cons_self _ _)
        simp [this]
      · apply noSlash_noDouble
        intro hm
        exact hnoslash' '/' hm rfl
    · intro ⟨h1, _⟩
      exact keyOk_last hn h1
  · rw [List.getLast?_append_cons, List.getLast?_cons_cons]
    intro he
    exact hnoslash' '/' (mem_of_getLast?_eq he) rfl
  · intro c hc
    rcases List.mem_append.mp hc with hc1 | hc1
    · exact keyOk_chars hn c hc1
    · rcases List.mem_cons.mp hc1 with rfl | hc2
      · show Char.toNat '/' < 65535
        decide
      · exact hchars c hc2

theorem inKeyRange_of_under {n : Chars} {kd : Chars} (hpref : (n ++ ['/']) <+: kd)
    (hkd : keyOkB kd = true) : inKeyRange (n ++ ['/']) kd = true := by
  obtain ⟨r, hr⟩ := hpref
  subst hr
  apply inKeyRange_append
  cases r with
  | nil =>
    exfalso
    apply keyOk_last hkd
    rw [List.append_nil, List.getLast?_append_cons]
    rfl
  | cons c t =>
    right
    refine ⟨c, t, rfl, ?_⟩
    exact keyOk_chars hkd c (by simp)

theorem takeWhile_ne_nil_of_head {c : Char} {t : Chars} (hc : c ≠ '/') :
    (c :: t).takeWhile (fun c => c ≠ '/') ≠ [] := by
  rw [List.takeWhile_cons, if_pos (by simpa using hc)]
  simp

theorem rest_decomp (rest : Chars) :
    rest.takeWhile (fun c => c ≠ '/') = rest ∨
    ∃ tail, rest = rest.takeWhile (fun c => c ≠ '/') ++ '/' :: tail := by
  have h : rest.takeWhile (fun c => c ≠ '/') ++ rest.dropWhile (fun c => c ≠ '/') = rest := by
    apply List.takeWhile_append_dropWhile
  rcases hd : rest.dropWhile (fun c => c ≠ '/') with _ | ⟨c, t⟩
  · left
    rw [hd, List.append_nil] at h
    exact h
  · right
    have hc : c = '/' := dropWhile_head_slash rest c t hd
    subst hc
    refine ⟨t, ?_⟩
    rw [hd] at h
    exact h.symm

theorem prefOf_eq {n : String} (hn : keyOkB n.data = true) :
    prefOf n = n.data ++ ['/'] := by
  unfold prefOf
  rw [if_neg]
  intro he
  have := keyOk_len hn
  rw [he] at this
  simp at this

theorem readdirEntries_mem_canonical {st : IDBStore} {n : String} (hn : keyOkB n.data = true)
    (e : FileEntry) :
    e ∈ readdirEntries st n ↔
      e ∈ (fileScan (n.data ++ ['/']) st.files []).1 ∨
      e ∈ dirScan n.data (n.data ++ ['/']) st.dirs
            (fileScan (n.data ++ ['/']) st.files []).2 := by
  rw [readdirEntries_mem, normalizePath_of_keyOk hn, prefOf_eq hn]

theorem key_under_decomp {n : String} {kd : Chars} (_hn : keyOkB n.data = true)
    (hkd : keyOkB kd = true) (hpref : (n.data ++ ['/']) <+: kd) :
    ∃ rest, kd = n.data ++ '/' :: rest ∧ rest ≠ [] ∧ rest.head? ≠ some '/' ∧
      kd.drop (n.data ++ ['/']).length = rest := by
  obtain ⟨rest, hr⟩ := hpref
  have hform : kd = n.data ++ '/' :: rest := by rw [← hr]; simp
  refine ⟨rest, hform, ?_, ?_, ?_⟩
  · intro he
    apply keyOk_last hkd
    rw [hform, he, List.getLast?_append_cons]
    rfl
  · apply noDouble_mid n.data
    rw [← hform]
    exact keyOk_noDouble hkd
  · rw [← hr, List.drop_left]

theorem length_ne_of_key_under {n : String} {kd : Chars} {rest : Chars}
    (hform : kd = n.data ++ '/' :: rest) : kd ≠ n.data := by
  intro he
  have h1 : kd.length = n.data.length + 1 + rest.length := by
    rw [hform]
    simp
    omega
  rw [he] at h1
  omega

/-- Completeness of `readdir` on a well-formed store: every record strictly
under the scanned directory is covered by some returned entry — a file entry
naming the record itself, or a subdirectory entry whose subtree contains the
record. -/
theorem readdir_covers (st : IDBStore) (n : String)
    (hwf : wfStoreB st = true) (hn : keyOkB n.data = true)
    (k : String) (hk : (n.data ++ ['/']) <+: k.data)
    (hrec : fileGet st k ≠ none ∨ dirGet st k ≠ none) :
    ∃ e ∈ readdirEntries st n,
      (e.isDirectory = true ∧ underEq e.path k) ∨
      (e.isDirectory = false ∧ e.path = k ∧ dirGet st k = none) := by
  have hkOk : keyOkB k.data = true := by
    rcases hrec with h | h
    · rcases ho : fileGet st k with _ | f
      · exact absurd ho h
      · obtain ⟨hm, hp⟩ := mem_of_fileGet_some ho
        rw [← hp]
        exact wf_file_keyOk hwf hm
    · rcases ho : dirGet st k with _ | d
      · exact absurd ho h
      · obtain ⟨hm, hp⟩ := mem_of_dirGet_some ho
        rw [← hp]
        exact wf_dir_keyOk hwf hm
  obtain ⟨rest, hform, hrne, hrhead, hdrop⟩ := key_under_decomp hn hkOk hk
  have hsne : rest.takeWhile (fun c => c ≠ '/') ≠ [] := by
    cases rest with
    | nil => exact absurd rfl hrne
    | cons c t =>
      have hc : c ≠ '/' := by
        intro he
        exact hrhead (by rw [he]; rfl)
      exact takeWhile_ne_nil_of_head hc
  have hchild : childName (n.data ++ ['/']) k.data = rest.takeWhile (fun c => c ≠ '/') := by
    unfold childName
    rw [hdrop]
  have hsall : (rest.takeWhile (fun c => c ≠ '/')).all (fun c => c != '/') = true :=
    takeWhile_all_noslash rest
  rcases rest_decomp rest with hdir | ⟨tail, hdeep⟩
  · -- direct child: the whole remainder is the name
    rcases hf : fileGet st k with _ | f
    · -- no file record, so a directory record sits exactly at k
      have hdne : dirGet st k ≠ none := by
        rcases hrec with h | h
        · exact absurd hf h
        · exact h
      rcases hdg : dirGet st k with _ | d
      · exact absurd hdg hdne
      obtain ⟨hdm, hdp⟩ := mem_of_dirGet_some hdg
      have hdata : d.path.data = k.data := by rw [hdp]
      have hrange : inKeyRange (n.data ++ ['/']) d.path.data = true := by
        rw [hdata]
        exact inKeyRange_of_under hk hkOk
      have hnev : d.path.data ≠ n.data := by
        rw [hdata]
        exact length_ne_of_key_under hform
      have hchild' : childName (n.data ++ ['/']) d.path.data =
          rest.takeWhile (fun c => c ≠ '/') := by
        rw [hdata, hchild]
      rcases dirScan_complete n.data (n.data ++ ['/']) st.dirs
          (fileScan (n.data ++ ['/']) st.files []).2 d hdm hrange hnev
          (by rw [hchild']; exact hsne) with ⟨e, hemem, hename, hepath, hedir⟩ | hseen
      · refine ⟨e, (readdirEntries_mem_canonical hn e).mpr (Or.inr hemem), Or.inl ⟨hedir, ?_⟩⟩
        left
        rw [hepath, hchild', hdir]
        have : (n.data ++ ['/']) ++ rest = k.data := by rw [hform]; simp
        rw [this]
      · exfalso
        rcases fileScan_seen (n.data ++ ['/']) st.files [] _ hseen with h | ⟨f', hf'm, hf'd⟩
        · exact absurd h (List.not_mem_nil _)
        · have hx : (⟨childName (n.data ++ ['/']) d.path.data⟩ : String).data =
              rest.takeWhile (fun c => c ≠ '/') := hchild'
          rw [hx, hdir] at hf'd
          have hkk : f'.path = k := by
            apply congrArg String.mk
            rw [hf'd, hform]
            simp
          exact fileGet_ne_none_of_mem hf'm (by rw [hkk]; exact hf)
    · -- a file record sits exactly at k: its file entry covers it
      obtain ⟨hfm, hfp⟩ := mem_of_fileGet_some hf
      have hdata : f.path.data = k.data := by rw [hfp]
      have hrange : inKeyRange (n.data ++ ['/']) f.path.data = true := by
        rw [hdata]
        exact inKeyRange_of_under hk hkOk
      have hdirect : isDirectChild (n.data ++ ['/']) f.path.data = true := by
        unfold isDirectChild
        rw [hdata, hdrop, ← hdir]
        exact hsall
      have hchild' : childName (n.data ++ ['/']) f.path.data =
          rest.takeWhile (fun c => c ≠ '/') := by
        unfold childName
        rw [hdata, hdrop, hdir, ← hdir]
      have hentry := fileScan_complete (n.data ++ ['/']) st.files [] f (wf_nodupF hwf) hfm
        hrange hdirect (by rw [hchild']; exact hsne) (List.not_mem_nil _)
      refine ⟨_, (readdirEntries_mem_canonical hn _).mpr (Or.inl hentry), Or.inr ⟨rfl, hfp, ?_⟩⟩
      rw [← hfp]
      exact wf_partition hwf hfm
  · -- deeper record: the first segment names a subdirectory entry
    have hsplit2 : k.data = (n.data ++ '/' :: rest.takeWhile (fun c => c ≠ '/')) ++ '/' :: tail := by
      rw [hform]
      conv_lhs => rw [hdeep]
      simp
    have hanc : (n.data ++ '/' :: rest.takeWhile (fun c => c ≠ '/')) ∈ properAncestors k.data := by
      rw [hsplit2]
      exact properAncestors_mem_of_split _ tail (by simp)
    have hsome : (dirGet st ⟨n.data ++ '/' :: rest.takeWhile (fun c => c ≠ '/')⟩).isSome = true := by
      rcases hrec with h | h
      · rcases ho : fileGet st k with _ | f
        · exact absurd ho h
        · obtain ⟨hm, hp⟩ := mem_of_fileGet_some ho
          exact wf_closure_file hwf hm (by rw [hp]; exact hanc)
      · rcases ho : dirGet st k with _ | d
        · exact absurd ho h
        · obtain ⟨hm, hp⟩ := mem_of_dirGet_some ho
          exact wf_closure_dir hwf hm (by rw [hp]; exact hanc)
    rcases ho : dirGet st ⟨n.data ++ '/' :: rest.takeWhile (fun c => c ≠ '/')⟩ with _ | d0
    · rw [ho] at hsome; simp at hsome
    obtain ⟨hd0m, hd0p⟩ := mem_of_dirGet_some ho
    have hd0data : d0.path.data = (n.data ++ ['/']) ++ rest.takeWhile (fun c => c ≠ '/') := by
      rw [hd0p]
      simp
    have hstake : (rest.takeWhile (fun c => c ≠ '/')).takeWhile (fun c => c ≠ '/') =
        rest.takeWhile (fun c => c ≠ '/') :=
      takeWhile_eq_self_of_all hsall
    have hchild0 : childName (n.data ++ ['/']) d0.path.data =
        rest.takeWhile (fun c => c ≠ '/') := by
      unfold childName
      rw [hd0data, List.drop_left]
      exact hstake
    have hrange0 : inKeyRange (n.data ++ ['/']) d0.path.data = true := by
      apply inKeyRange_of_under
      · rw [hd0data]
        exact ⟨_, rfl⟩
      · exact wf_dir_keyOk hwf hd0m
    have hnev0 : d0.path.data ≠ n.data := by
      apply length_ne_of_key_under
      rw [hd0p]
    rcases dirScan_complete n.data (n.data ++ ['/']) st.dirs
        (fileScan (n.data ++ ['/']) st.files []).2 d0 hd0m hrange0 hnev0
        (by rw [hchild0]; exact hsne) with ⟨e, hemem, hename, hepath, hedir⟩ | hseen
    · refine ⟨e, (readdirEntries_mem_canonical hn e).mpr (Or.inr hemem), Or.inl ⟨hedir, ?_⟩⟩
      right
      rw [hepath, hchild0]
      show ((⟨(n.data ++ ['/']) ++ rest.takeWhile (fun c => c ≠ '/')⟩ : String).data ++ ['/']) <+: k.data
      refine ⟨tail, ?_⟩
      rw [hsplit2]
      simp
    · exfalso
      rcases fileScan_seen (n.data ++ ['/']) st.files [] _ hseen with h | ⟨f', hf'm, hf'd⟩
      · exact absurd h (List.not_mem_nil _)
      · have hx : (⟨childName (n.data ++ ['/']) d0.path.data⟩ : String).data =
            rest.takeWhile (fun c => c ≠ '/') := hchild0
        rw [hx] at hf'd
        have hkk : f'.path = ⟨n.data ++ '/' :: rest.takeWhile (fun c => c ≠ '/')⟩ := by
          apply congrArg String.mk
          rw [hf'd]
          simp
        have hpart := wf_partition hwf hf'm
        rw [hkk, ho] at hpart
        exact Option.noConfusion hpart

/-- Soundness of `readdir` entries on a well-formed store: every entry names
a canonical key strictly under the scanned directory, and a directory entry
is at least two characters longer than the directory, with no file record at
its path. -/
theorem readdir_entry_spec (st : IDBStore) (n : String)
    (hwf : wfStoreB st = true) (hn : keyOkB n.data = true) :
    ∀ e ∈ readdirEntries st n,
      keyOkB e.path.data = true ∧ ((n.data ++ ['/']) <+: e.path.data) ∧
      (e.isDirectory = true → n.data.length + 2 ≤ e.path.data.length ∧
        fileGet st e.path = none) := by
  intro e he
  rcases (readdirEntries_mem_canonical hn e).mp he with hfe | hde
  · obtain ⟨hdir, f, hfm, hpath, hrange, hne, hdirect, hname⟩ := fileScan_sound _ _ _ _ hfe
    refine ⟨by rw [hpath]; exact wf_file_keyOk hwf hfm,
      by rw [hpath]; exact inKeyRange_isPrefix _ _ hrange, ?_⟩
    intro hcontra
    rw [hdir] at hcontra
    exact absurd hcontra (by simp)
  · obtain ⟨hdir, hpath, hne, hnoslash, d, hdm, hrange, hnev, hname⟩ := dirScan_sound _ _ _ _ _ hde
    have hdOk := wf_dir_keyOk hwf hdm
    have hchars : ∀ c ∈ e.name.data, c.toNat < 65535 := by
      intro c hc
      rw [hname] at hc
      have h1 : c ∈ d.path.data.drop (n.data ++ ['/']).length :=
        (List.takeWhile_prefix _).subset hc
      exact keyOk_chars hdOk c (List.drop_subset _ _ h1)
    have hassoc : (n.data ++ ['/']) ++ e.name.data = n.data ++ '/' :: e.name.data := by simp
    have hkOkE : keyOkB e.path.data = true := by
      rw [hpath]
      show keyOkB ((n.data ++ ['/']) ++ e.name.data) = true
      rw [hassoc]
      exact keyOk_child hn hne hnoslash hchars
    have hdrel : d.path.data = (n.data ++ ['/']) ++ d.path.data.drop (n.data ++ ['/']).length :=
      (isPrefix_drop_append (inKeyRange_isPrefix _ _ hrange)).symm
    refine ⟨hkOkE, by rw [hpath]; exact ⟨e.name.data, rfl⟩, fun _ => ⟨?_, ?_⟩⟩
    · rw [hpath]
      show n.data.length + 2 ≤ ((n.data ++ ['/']) ++ e.name.data).length
      have hpos : 0 < e.name.data.length := List.length_pos.mpr hne
      rw [List.length_append, List.length_append]
      simp only [List.length_singleton]
      omega
    · -- a directory record exists at e.path, so partition rules out a file
      have hdsome : (dirGet st e.path).isSome = true := by
        rcases rest_decomp (d.path.data.drop (n.data ++ ['/']).length) with hflat | ⟨tail2, hdeep⟩
        · have hpe : e.path = d.path := by
            rw [hpath]
            apply congrArg String.mk
            show (n.data ++ ['/']) ++ e.name.data = d.path.data
            rw [hname]
            unfold childName
            rw [hflat]
            exact hdrel.symm
          rw [hpe]
          exact dirGet_isSome_of_mem hdm
        · have hsplit : d.path.data = (n.data ++ '/' :: e.name.data) ++ '/' :: tail2 := by
            conv_lhs => rw [hdrel]
            conv_lhs => rw [hdeep]
            rw [hname]
            unfold childName
            simp
          have hanc : (n.data ++ '/' :: e.name.data) ∈ properAncestors d.path.data := by
            rw [hsplit]
            exact properAncestors_mem_of_split _ tail2 (by simp)
          have := wf_closure_dir hwf hdm hanc
          have hpe : e.path = ⟨n.data ++ '/' :: e.name.data⟩ := by
            rw [hpath]
            apply congrArg String.mk
            exact hassoc
          rw [hpe]
          exact this
      rcases hfe2 : fileGet st e.path with _ | f'
      · rfl
      · exfalso
        obtain ⟨hf'm, hf'p⟩ := mem_of_fileGet_some hfe2
        have hpart := wf_partition hwf hf'm
        rw [hf'p] at hpart
        rw [hpart] at hdsome
        simp at hdsome

/-! ### The recursive-deletion loop -/

/-- What `readdir_entry_spec` guarantees about each entry of the listing
that `rmdir` recurses over. -/
def EntryOk (st0 : IDBStore) (n : String) (e : FileEntry) : Prop :=
  keyOkB e.path.data = true ∧ ((n.data ++ ['/']) <+: e.path.data) ∧
  (e.isDirectory = true → n.data.length + 2 ≤ e.path.data.length ∧ fileGet st0 e.path = none)

/-- Processing an entry has removed its whole scope from the store. -/
def cleared (s' : IDBStore) (e : FileEntry) : Prop :=
  if e.isDirectory = true then
    ∀ k, underEq e.path k → fileGet s' k = none ∧ dirGet s' k = none
  else fileGet s' e.path = none

theorem ne_of_under {n k : String} (h : (n.data ++ ['/']) <+: k.data) : k ≠ n := by
  obtain ⟨r, hr⟩ := h
  intro he
  rw [he] at hr
  have := congrArg List.length hr
  simp at this

theorem not_underEq_of_not_underEq {n t k : String}
    (ht : (n.data ++ ['/']) <+: t.data) (hk : ¬ underEq n k) : ¬ underEq t k := by
  intro h
  apply hk
  rcases h with rfl | h
  · exact Or.inr ht
  · right
    refine ht.trans (List.IsPrefix.trans ⟨['/'], rfl⟩ h)

theorem processEntries_spec (rm : IDBStore → String → IDBStore) (n : String) (st0 : IDBStore)
    (hrm : ∀ (s : IDBStore) (e : FileEntry), e.isDirectory = true → EntryOk st0 n e →
      wfStoreB s = true → List.Sublist s.files st0.files → List.Sublist s.dirs st0.dirs →
      List.Sublist (rm s e.path).files s.files ∧ List.Sublist (rm s e.path).dirs s.dirs ∧
      (∀ k, underEq e.path k → fileGet (rm s e.path) k = none ∧ dirGet (rm s e.path) k = none) ∧
      (∀ k, ¬ underEq e.path k → fileGet (rm s e.path) k = fileGet s k ∧
        dirGet (rm s e.path) k = dirGet s k)) :
    ∀ (entries : List FileEntry) (s : IDBStore),
      (∀ e ∈ entries, EntryOk st0 n e) →
      wfStoreB s = true → List.Sublist s.files st0.files → List.Sublist s.dirs st0.dirs →
      List.Sublist (processEntries rm s entries).files s.files ∧
      List.Sublist (processEntries rm s entries).dirs s.dirs ∧
      wfStoreB (processEntries rm s entries) = true ∧
      (∀ e ∈ entries, cleared (processEntries rm s entries) e) ∧
      (∀ k, ¬ underEq n k → fileGet (processEntries rm s entries) k = fileGet s k ∧
        dirGet (processEntries rm s entries) k = dirGet s k) := by
  intro entries
  induction entries with
  | nil =>
    intro s _ hwfs _ _
    exact ⟨List.Sublist.refl _, List.Sublist.refl _, hwfs,
      fun e he => absurd he (List.not_mem_nil e), fun k _ => ⟨rfl, rfl⟩⟩
  | cons e rest ih =>
    intro s hents hwfs hsf hsd
    have heok := hents e (List.mem_cons_self e rest)
    rw [processEntries]
    rcases hedir : e.isDirectory with _ | _
    · -- file entry: delete the record
      rw [if_neg (by simp)]
      have hnorm : normalizePath e.path = e.path := normalizePath_of_keyOk heok.1
      have hsub1f : List.Sublist (deleteFile s e.path).files s.files :=
        deleteFile_files_sublist s e.path
      have hsub1d : List.Sublist (deleteFile s e.path).dirs s.dirs := by
        rw [deleteFile_dirs]
      have hwf1 : wfStoreB (deleteFile s e.path) = true := wf_deleteFile e.path hwfs
      obtain ⟨hRf, hRd, hRwf, hRclear, hRfr⟩ := ih (deleteFile s e.path)
        (fun e' he' => hents e' (List.mem_cons_of_mem e he'))
        hwf1 (hsub1f.trans hsf) (hsub1d.trans hsd)
      refine ⟨hRf.trans hsub1f, hRd.trans hsub1d, hRwf, ?_, ?_⟩
      · intro e' he'
        rcases List.mem_cons.mp he' with rfl | he''
        · unfold cleared
          rw [hedir]
          simp only [Bool.false_eq_true, if_false]
          apply fileGet_none_mono hRf
          have := deleteFile_fileGet_self s e'.path
          rwa [hnorm] at this
        · exact hRclear e' he''
      · intro k hk
        have hkne : k ≠ e.path := by
          intro he
          exact hk (Or.inr (by rw [he]; exact heok.2.1))
        obtain ⟨h1, h2⟩ := hRfr k hk
        refine ⟨?_, ?_⟩
        · rw [h1]
          apply deleteFile_fileGet_ne
          rw [hnorm]
          exact hkne
        · rw [h2]
          exact dirGet_eq_of_dirs (deleteFile_dirs s e.path) k
    · -- directory entry: recurse
      rw [if_pos rfl]
      obtain ⟨hsub1f, hsub1d, hclear1, hfr1⟩ := hrm s e hedir heok hwfs hsf hsd
      have hwf1 : wfStoreB (rm s e.path) = true :=
        closure_transfer e.path hwfs hsub1f hsub1d hclear1 hfr1
      obtain ⟨hRf, hRd, hRwf, hRclear, hRfr⟩ := ih (rm s e.path)
        (fun e' he' => hents e' (List.mem_cons_of_mem e he'))
        hwf1 (hsub1f.trans hsf) (hsub1d.trans hsd)
      refine ⟨hRf.trans hsub1f, hRd.trans hsub1d, hRwf, ?_, ?_⟩
      · intro e' he'
        rcases List.mem_cons.mp he' with rfl | he''
        · unfold cleared
          rw [hedir]
          simp only [if_true]
          intro k hk
          obtain ⟨h1, h2⟩ := hclear1 k hk
          exact ⟨fileGet_none_mono hRf h1, dirGet_none_mono hRd h2⟩
        · exact hRclear e' he''
      · intro k hk
        obtain ⟨h1, h2⟩ := hRfr k hk
        obtain ⟨h3, h4⟩ := hfr1 k (not_underEq_of_not_underEq heok.2.1 hk)
        exact ⟨h1.trans h3, h2.trans h4⟩

theorem under_ancestor_root {n k : String} (hn : keyOkB n.data = true)
    (hk : (n.data ++ ['/']) <+: k.data) : n.data ∈ properAncestors k.data := by
  obtain ⟨r, hr⟩ := hk
  have hform : k.data = n.data ++ '/' :: r := by rw [← hr]; simp
  rw [hform]
  apply properAncestors_mem_of_split
  intro he
  have := keyOk_len hn
  rw [he] at this
  simp at this

/-- The main specification of recursive `rmdir` on a well-formed store with
sufficient fuel: it removes exactly the directory itself and everything
strictly under it, and leaves every other record untouched. -/
theorem rmdirF_spec : ∀ (fuel : Nat) (st : IDBStore) (n : String),
    wfStoreB st = true → keyOkB n.data = true → fileGet st n = none →
    (∀ d ∈ st.dirs, d.path.data.length < n.data.length + fuel) →
    List.Sublist (rmdirF fuel st n true).files st.files ∧
    List.Sublist (rmdirF fuel st n true).dirs st.dirs ∧
    (∀ k : String, underEq n k →
      fileGet (rmdirF fuel st n true) k = none ∧ dirGet (rmdirF fuel st n true) k = none) ∧
    (∀ k : String, ¬ underEq n k →
      fileGet (rmdirF fuel st n true) k = fileGet st k ∧
      dirGet (rmdirF fuel st n true) k = dirGet st k) := by
  intro fuel
  induction fuel with
  | zero =>
    intro st n hwf hn hfn hfuel
    refine ⟨List.Sublist.refl _, List.Sublist.refl _, ?_, fun k _ => ⟨rfl, rfl⟩⟩
    intro k hk
    have hdirn : dirGet st n = none := by
      rcases ho : dirGet st n with _ | d
      · rfl
      · exfalso
        obtain ⟨hdm, hdp⟩ := mem_of_dirGet_some ho
        have := hfuel d hdm
        rw [hdp] at this
        omega
    rcases hk with rfl | hk
    · exact ⟨hfn, hdirn⟩
    · have hanc : n.data ∈ properAncestors k.data := under_ancestor_root hn hk
      constructor
      · rcases ho : fileGet st k with _ | f
        · exact ho
        · exfalso
          obtain ⟨hfm, hfp⟩ := mem_of_fileGet_some ho
          have hcl := wf_closure_file hwf hfm (by rw [hfp]; exact hanc)
          have : dirGet st ⟨n.data⟩ = dirGet st n := rfl
          rw [this, hdirn] at hcl
          simp at hcl
      · rcases ho : dirGet st k with _ | d
        · exact ho
        · exfalso
          obtain ⟨hdm, hdp⟩ := mem_of_dirGet_some ho
          have hcl := wf_closure_dir hwf hdm (by rw [hdp]; exact hanc)
          have : dirGet st ⟨n.data⟩ = dirGet st n := rfl
          rw [this, hdirn] at hcl
          simp at hcl
  | succ fuel ih =>
    intro st n hwf hn hfn hfuel
    have hnn : normalizePath n = n := normalizePath_of_keyOk hn
    have hstep : rmdirF (fuel + 1) st n true =
        ⟨(processEntries (fun s q => rmdirF fuel s q true) st (readdirEntries st n)).files,
         dirDel (processEntries (fun s q => rmdirF fuel s q true) st (readdirEntries st n)).dirs
           n⟩ := by
      show (let n' := normalizePath n
            let st1 := if true then
                processEntries (fun s q => rmdirF fuel s q true) st (readdirEntries st n')
              else st
            ({ st1 with dirs := dirDel st1.dirs n' } : IDBStore)) = _
      rw [hnn]
      rfl
    have hents : ∀ e ∈ readdirEntries st n, EntryOk st n e := by
      intro e he
      exact readdir_entry_spec st n hwf hn e he
    have hrm : ∀ (s : IDBStore) (e : FileEntry), e.isDirectory = true → EntryOk st n e →
        wfStoreB s = true → List.Sublist s.files st.files → List.Sublist s.dirs st.dirs →
        List.Sublist (rmdirF fuel s e.path true).files s.files ∧
        List.Sublist (rmdirF fuel s e.path true).dirs s.dirs ∧
        (∀ k, underEq e.path k →
          fileGet (rmdirF fuel s e.path true) k = none ∧
          dirGet (rmdirF fuel s e.path true) k = none) ∧
        (∀ k, ¬ underEq e.path k →
          fileGet (rmdirF fuel s e.path true) k = fileGet s k ∧
          dirGet (rmdirF fuel s e.path true) k = dirGet s k) := by
      intro s e hedir heok hwfs hsf hsd
      obtain ⟨hlen, hfnone⟩ := heok.2.2 hedir
      apply ih s e.path hwfs heok.1 (fileGet_none_mono hsf hfnone)
      intro d hd
      have h1 := hfuel d (hsd.subset hd)
      omega
    obtain ⟨hPf, hPd, hPwf, hPclear, hPfr⟩ := processEntries_spec
      (fun s q => rmdirF fuel s q true) n st hrm (readdirEntries st n) st hents hwf
      (List.Sublist.refl _) (List.Sublist.refl _)
    rw [hstep]
    set stP := processEntries (fun s q => rmdirF fuel s q true) st (readdirEntries st n)
      with hstP
    have hfiles_eq : ∀ k : String, fileGet ⟨stP.files, dirDel stP.dirs n⟩ k = fileGet stP k :=
      fun k => rfl
    refine ⟨hPf, (dirDel_sublist stP.dirs n).trans hPd, ?_, ?_⟩
    · intro k hk
      rcases hk with rfl | hk
      · refine ⟨?_, dirDel_dirGet_self _ _ _⟩
        rw [hfiles_eq]
        exact fileGet_none_mono hPf hfn
      · have hkne : k ≠ n := ne_of_under hk
        by_cases hrec : fileGet st k ≠ none ∨ dirGet st k ≠ none
        · obtain ⟨e, hemem, hcover⟩ := readdir_covers st n hwf hn k hk hrec
          have hcl := hPclear e hemem
          rcases hcover with ⟨hedir, hunder⟩ | ⟨hedir, hepath, hdnone⟩
          · unfold cleared at hcl
            rw [hedir] at hcl
            simp only [if_true] at hcl
            obtain ⟨h1, h2⟩ := hcl k hunder
            refine ⟨by rw [hfiles_eq]; exact h1, ?_⟩
            rw [show dirGet ⟨stP.files, dirDel stP.dirs n⟩ k = dirGet stP k from
              dirDel_dirGet_ne _ _ _ hkne]
            exact h2
          · unfold cleared at hcl
            rw [hedir] at hcl
            simp only [Bool.false_eq_true, if_false] at hcl
            refine ⟨by rw [hfiles_eq, ← hepath]; exact hcl, ?_⟩
            rw [show dirGet ⟨stP.files, dirDel stP.dirs n⟩ k = dirGet stP k from
              dirDel_dirGet_ne _ _ _ hkne]
            exact dirGet_none_mono hPd hdnone
        · push_neg at hrec
          obtain ⟨h1, h2⟩ := hrec
          refine ⟨by rw [hfiles_eq]; exact fileGet_none_mono hPf h1, ?_⟩
          rw [show dirGet ⟨stP.files, dirDel stP.dirs n⟩ k = dirGet stP k from
            dirDel_dirGet_ne _ _ _ hkne]
          exact dirGet_none_mono hPd h2
    · intro k hk
      have hkne : k ≠ n := fun he => hk (Or.inl he)
      obtain ⟨h1, h2⟩ := hPfr k hk
      refine ⟨by rw [hfiles_eq]; exact h1, ?_⟩
      rw [show dirGet ⟨stP.files, dirDel stP.dirs n⟩ k = dirGet stP k from
        dirDel_dirGet_ne _ _ _ hkne]
      exact h2

/-- C4, counterexample: in a state reached only by `writeFile` and `mkdir`
(file `/p/x` written, then `mkdir('/p/x/y')`, which checks only the
directories store and so creates a directory record at the file's own path),
recursive `rmdir('/p')` leaves `exists('/p/x')` true: the listing of `/p`
dedupes the name `x` to the file entry, so the directory subtree under
`/p/x` is never visited. -/
theorem rmdir_recursive_counterexample :
    existsPath (rmdirF 10 (mkdir (writeFile initStore "/p/x" "c" 0) "/p/x/y" 1) "/p" true)
      "/p/x" = true ∧
    (("/p" : String).data ++ ['/']) <+: ("/p/x" : String).data := by
  constructor
  · rfl
  · decide

theorem rmdirF_normalize (fuel : Nat) (st : IDBStore) (P : String)
    (h : normalizePath (normalizePath P) = normalizePath P) :
    rmdirF fuel st P true = rmdirF fuel st (normalizePath P) true := by
  cases fuel with
  | zero => rfl
  | succ f => simp only [rmdirF, h]

/-- C4 (amended): on a store satisfying the flat-store invariants (canonical
record keys over characters below U+FFFF, unique keys per collection, full
ancestor chains, and the file/directory partition), if the normalized target
is a canonical non-root path with no file record of its own and the
recursion budget exceeds every stored directory depth, then
`rmdir(P, {recursive: true})` removes the directory record of `P` and every
file and directory record strictly under `P`, leaving `exists` false for `P`
and every descendant. -/
theorem rmdir_recursive_removes_subtree (fuel : Nat) (st : IDBStore) (P : String)
    (hwf : wfStoreB st = true)
    (hn : keyOkB (normalizePath P).data = true)
    (hnof : fileGet st (normalizePath P) = none)
    (hfuel : ∀ d ∈ st.dirs, d.path.data.length < (normalizePath P).data.length + fuel) :
    (∀ k : String, underEq (normalizePath P) k →
        fileGet (rmdirF fuel st P true) k = none ∧ dirGet (rmdirF fuel st P true) k = none) ∧
    (∀ q : String, underEq (normalizePath P) (normalizePath q) →
        existsPath (rmdirF fuel st P true) q = false) := by
  have hid : normalizePath (normalizePath P) = normalizePath P := normalizePath_of_keyOk hn
  rw [rmdirF_normalize fuel st P hid]
  obtain ⟨_, _, hrem, _⟩ := rmdirF_spec fuel st (normalizePath P) hwf hn hnof hfuel
  refine ⟨hrem, ?_⟩
  intro q hq
  obtain ⟨h1, h2⟩ := hrem (normalizePath q) hq
  simp only [existsPath]
  rw [h1, h2]
  rfl

/-- Witness for the amended C4 on a concrete well-formed store. -/
theorem rmdir_recursive_removes_subtree_witness :
    existsPath (rmdirF 10 (writeFile initStore "/p/a/f" "c" 0) "/p" true) "/p/a/f" = false ∧
    existsPath (rmdirF 10 (writeFile initStore "/p/a/f" "c" 0) "/p" true) "/p" = false := by
  have h := rmdir_recursive_removes_subtree 10 (writeFile initStore "/p/a/f" "c" 0) "/p"
    (by decide) (by decide) (by decide) (by decide)
  exact ⟨h.2 "/p/a/f" (by decide), h.2 "/p" (by decide)⟩

/-! ## C10: the root path and the flat store -/

/-- C10, counterexample: `writeFile('/', c)` stores a file record keyed by
`/` (the parent-creation step skips the root), after which `exists('/')` is
true and `stat('/')` succeeds — so the root is not unrepresentable in every
store state. -/
theorem root_record_counterexample :
    existsPath (writeFile initStore "/" "c" 0) "/" = true ∧
    statFs (writeFile initStore "/" "c" 0) "/" = .ok ⟨1, false, true, 0⟩ := by
  exact ⟨rfl, rfl⟩

theorem readdir_root_dir_child (st : IDBStore) (d : StoredDirectory)
    (hd : d ∈ st.dirs) (hr : inKeyRange ['/'] d.path.data = true)
    (hne : d.path.data ≠ ['/']) (hcn : childName ['/'] d.path.data ≠ []) :
    ∃ e ∈ readdirEntries st "/", e.name = ⟨childName ['/'] d.path.data⟩ := by
  have h1 : prefOf (normalizePath "/") = ['/'] := rfl
  have hne2 : d.path.data ≠ (normalizePath "/").data := hne
  rcases dirScan_complete (normalizePath "/").data ['/'] st.dirs
      (fileScan ['/'] st.files []).2 d hd hr hne2 hcn with ⟨e, he, hen, _, _⟩ | hseen
  · refine ⟨e, ?_, hen⟩
    rw [readdirEntries_mem, h1]
    exact Or.inr he
  · rcases fileScan_seen_entry ['/'] st.files [] _ hseen with hmem | ⟨e, he, hen⟩
    · exact absurd hmem (List.not_mem_nil _)
    · refine ⟨e, ?_, hen⟩
      rw [readdirEntries_mem, h1]
      exact Or.inl he

/-- C10 (amended): `mkdir('/')` creates no record and returns without error
in every store state.  In every state with no record keyed `/` (none is ever
created by `mkdir`, though `writeFile('/', ...)` can create one),
`exists('/')` is false and `stat('/')` fails NotFound.  And `readdir('/')`
still enumerates the root's direct children: when file keys are unique it
lists an entry for every direct-child file record, and for every directory
record below the root it lists an entry carrying that record's first path
segment as its name. -/
theorem root_not_represented (st : IDBStore) (now : Nat) :
    mkdir st "/" now = st ∧
    (fileGet st "/" = none → dirGet st "/" = none →
      existsPath st "/" = false ∧ statFs st "/" = .error .notFound) ∧
    (nodupKeysF st.files = true →
      ∀ f ∈ st.files, inKeyRange ['/'] f.path.data = true →
        isDirectChild ['/'] f.path.data = true → childName ['/'] f.path.data ≠ [] →
        ∃ e ∈ readdirEntries st "/", e.path = f.path ∧ e.isDirectory = false) ∧
    (∀ d ∈ st.dirs, inKeyRange ['/'] d.path.data = true →
        d.path.data ≠ ['/'] → childName ['/'] d.path.data ≠ [] →
        ∃ e ∈ readdirEntries st "/", e.name = ⟨childName ['/'] d.path.data⟩) := by
  refine ⟨rfl, ?_, ?_, ?_⟩
  · intro hf hd
    have hf2 : fileGet st (normalizePath "/") = none := hf
    have hd2 : dirGet st (normalizePath "/") = none := hd
    constructor
    · simp only [existsPath]
      rw [hf2, hd2]
      rfl
    · simp only [statFs]
      rw [hf2, hd2]
  · intro hnd f hfm hr hdc hne
    have hentry := fileScan_complete ['/'] st.files [] f hnd hfm hr hdc hne
      (List.not_mem_nil _)
    exact ⟨_, (readdirEntries_mem st "/" _).mpr (Or.inl hentry), rfl, rfl⟩
  · intro d hd hr hne hcn
    exact readdir_root_dir_child st d hd hr hne hcn

/-- Witness for the amended C10 on a concrete store holding one root-level
file and one root-level directory. -/
theorem root_not_represented_witness :
    mkdir (mkdir (writeFile initStore "/x" "c" 0) "/d" 1) "/" 5 =
      mkdir (writeFile initStore "/x" "c" 0) "/d" 1 ∧
    existsPath (mkdir (writeFile initStore "/x" "c" 0) "/d" 1) "/" = false ∧
    statFs (mkdir (writeFile initStore "/x" "c" 0) "/d" 1) "/" = .error .notFound ∧
    (∃ e ∈ readdirEntries (mkdir (writeFile initStore "/x" "c" 0) "/d" 1) "/",
      e.path = ("/x" : String) ∧ e.isDirectory = false) ∧
    (∃ e ∈ readdirEntries (mkdir (writeFile initStore "/x" "c" 0) "/d" 1) "/",
      e.name = ("d" : String)) := by
  have h := root_not_represented (mkdir (writeFile initStore "/x" "c" 0) "/d" 1) 5
  refine ⟨h.1, (h.2.1 (by decide) (by decide)).1, (h.2.1 (by decide) (by decide)).2, ?_, ?_⟩
  · have hx : ∃ f ∈ (mkdir (writeFile initStore "/x" "c" 0) "/d" 1).files,
        f.path = ("/x" : String) ∧ inKeyRange ['/'] f.path.data = true ∧
        isDirectChild ['/'] f.path.data = true ∧ childName ['/'] f.path.data ≠ [] := by decide
    obtain ⟨f, hfm, hfp, h1, h2, h3⟩ := hx
    obtain ⟨e, hemem, hp, hdir⟩ := h.2.2.1 (by decide) f hfm h1 h2 h3
    exact ⟨e, hemem, hfp ▸ hp, hdir⟩
  · have hx : ∃ d ∈ (mkdir (writeFile initStore "/x" "c" 0) "/d" 1).dirs,
        childName ['/'] d.path.data = ("d" : String).data ∧
        inKeyRange ['/'] d.path.data = true ∧
        d.path.data ≠ ['/'] ∧ childName ['/'] d.path.data ≠ [] := by decide
    obtain ⟨d, hdm, hdn, h1, h2, h3⟩ := hx
    obtain ⟨e, hemem, hname⟩ := h.2.2.2 d hdm h1 h2 h3
    refine ⟨e, hemem, ?_⟩
    rw [hname, hdn]

/-! ## C5: path translation in the service-level `readdir` -/

theorem readdirEntries_root_decomp (st : IDBStore) (e : FileEntry)
    (he : e ∈ readdirEntries st "/") : e.path.data = '/' :: e.name.data := by
  have h1 : prefOf (normalizePath "/") = ['/'] := rfl
  rw [readdirEntries_mem, h1] at he
  rcases he with hf | hd
  · obtain ⟨_, f, _, hpath, hrange, _, hdc, hname⟩ := fileScan_sound ['/'] st.files [] e hf
    obtain ⟨t, ht⟩ := inKeyRange_isPrefix ['/'] f.path.data hrange
    have hch : childName ['/'] f.path.data = f.path.data.drop 1 := childName_eq_of_direct hdc
    rw [hpath, hname, hch]
    show f.path.data = '/' :: f.path.data.drop 1
    rw [← ht]
    rfl
  · obtain ⟨_, hpath, _, _, _⟩ := dirScan_sound (normalizePath "/").data ['/'] st.dirs _ e hd
    rw [hpath]
    rfl

/-- C5, counterexample: with backend 0 mounted at `/m/` and holding the file
`/sub/x`, the service-level `readdir('/m/sub')` returns the single entry
named `x` with path `/m/subsub/x` — the rewrite
`normalizedMountPath + entry.path.slice(1)` glues the normalized request
path onto the backend path with its leading slash removed, not the request
path joined with `/` and the name. -/
theorem serviceReaddir_path_counterexample :
    serviceReaddir [⟨"/m/", 0⟩] (fun _ => writeFile initStore "/sub/x" "c" 0) "/m/sub" =
      some [⟨"x", "/m/subsub/x", false⟩] ∧
    ("/m/subsub/x" : String) ≠ ⟨("/m/sub" : String).data ++ '/' :: ("x" : String).data⟩ := by
  exact ⟨rfl, by decide⟩

/-- C5 (amended): the translation is correct exactly at a mount root.  When
the request resolves with backend-relative path `/` and the normalized
request path is the matched mount's path in trailing-slash form, every
returned entry's `path` is that mount path followed directly by the entry's
`name` — the canonical absolute path of the child.  For deeper request
paths the rewrite mangles the result (see the counterexample). -/
theorem serviceReaddir_mount_root_paths (ms : List MountPoint) (stores : Nat → IDBStore)
    (P : String) (m : MountPoint) (l : List FileEntry)
    (hres : getBackendForPath ms P = some (m, "/"))
    (hP : serviceNormalizePath P = normalizeMountPath m.path)
    (hl : serviceReaddir ms stores P = some l) :
    ∀ e ∈ l, e.path = ⟨(normalizeMountPath m.path).data ++ e.name.data⟩ := by
  intro e he
  simp only [serviceReaddir] at hl
  rw [hres] at hl
  have hl2 : (readdirEntries (stores m.backendId) "/").map (fun e0 =>
      { e0 with path := if serviceNormalizePath P = "/" then e0.path
          else ⟨(serviceNormalizePath P).data ++ e0.path.data.drop 1⟩ }) = l :=
    Option.some.inj hl
  rw [← hl2] at he
  obtain ⟨e0, he0, hee⟩ := List.mem_map.mp he
  have hdec : e0.path.data = '/' :: e0.name.data :=
    readdirEntries_root_decomp (stores m.backendId) e0 he0
  rw [← hee]
  by_cases hroot : serviceNormalizePath P = "/"
  · simp only [if_pos hroot]
    show e0.path = ⟨(normalizeMountPath m.path).data ++ e0.name.data⟩
    rw [← hP, hroot]
    exact congrArg (fun l => (⟨l⟩ : String)) hdec
  · simp only [if_neg hroot]
    show (⟨(serviceNormalizePath P).data ++ e0.path.data.drop 1⟩ : String) =
      ⟨(normalizeMountPath m.path).data ++ e0.name.data⟩
    rw [hP, hdec]
    rfl

/-- Witness for the amended C5: backend 0 mounted at `/m/`, request `/m/`. -/
theorem serviceReaddir_mount_root_paths_witness :
    serviceReaddir [⟨"/m/", 0⟩] (fun _ => writeFile initStore "/sub/x" "c" 0) "/m/" =
      some [⟨"sub", "/m/sub", true⟩] ∧
    ∀ e ∈ [(⟨"sub", "/m/sub", true⟩ : FileEntry)],
      e.path = ⟨(normalizeMountPath ("/m/" : String)).data ++ e.name.data⟩ := by
  refine ⟨rfl, ?_⟩
  exact serviceReaddir_mount_root_paths [⟨"/m/", 0⟩]
    (fun _ => writeFile initStore "/sub/x" "c" 0) "/m/" ⟨"/m/", 0⟩
    [⟨"sub", "/m/sub", true⟩] (by decide) (by decide) rfl

/-! ## Concrete witnesses for the hypothesis-bearing claim theorems -/

/-- Witness for C3 at `mkdir('/a/b')` on the empty store. -/
theorem mkdir_ancestors_and_idempotent_witness :
    existsPath (mkdir initStore "/a/b" 0) "/a" = true ∧
    existsPath (mkdir initStore "/a/b" 0) "/a/b" = true ∧
    mkdir (mkdir initStore "/a/b" 0) "/a/b" 7 = mkdir initStore "/a/b" 0 := by
  have h := mkdir_ancestors_and_idempotent initStore "/a/b" 0 7
  exact ⟨h.1 "/a" (by decide), h.1 "/a/b" (by decide), h.2⟩

/-- Witness for C9: a clean run and a run aborted by handler `1`. -/
theorem emit_order_and_abort_witness :
    emitRun (fun n => n == 5) [0, 1] = ([0, 1], false) ∧
    emitRun (fun n => n == 1) [0, 1, 2] = ([0, 1], true) := by
  refine ⟨(emit_order_and_abort (fun n => n == 5) [0, 1] [] [] 0).1 (by decide), ?_⟩
  exact (emit_order_and_abort (fun n => n == 1) [0, 1, 2] [0] [2] 1).2 rfl (by decide) rfl

/-- Witness for C8: `/f` written at time 1 and overwritten at time 5, with
the frame checked at the untouched key `/g`. -/
theorem overwrite_ctime_mtime_witness :
    (∃ r : StoredFile, fileGet (writeFile (writeFile initStore "/f" "a" 1) "/f" "b" 5)
        (normalizePath "/f") = some r ∧ r.ctime = 1 ∧ r.mtime = 5) ∧
    (∃ r : StoredFile,
        fileGet (writeBinaryBatch (writeFile initStore "/f" "a" 1) [⟨"/f", [9]⟩] true 5)
          (normalizePath "/f") = some r ∧ r.ctime = 5 ∧ r.mtime = 5) ∧
    fileGet (writeFile (writeFile initStore "/f" "a" 1) "/f" "b" 5) (normalizePath "/g") =
      fileGet (writeFile initStore "/f" "a" 1) (normalizePath "/g") ∧
    fileGet (writeBinary (writeFile initStore "/f" "a" 1) "/f" [9] 5) (normalizePath "/g") =
      fileGet (writeFile initStore "/f" "a" 1) (normalizePath "/g") := by
  have h := overwrite_ctime_mtime (writeFile initStore "/f" "a" 1) "/f" "/g" "b" [9] 5
    ⟨"/f", FileContent.text "a", false, 1, 1, 1⟩ (by decide)
  exact ⟨h.1, h.2.2.1, (h.2.2.2 (by decide)).1, (h.2.2.2 (by decide)).2⟩

/-- Witness for C1: a two-mount table, resolved to the longest prefix. -/
theorem mount_table_sorted_unique_longest_witness :
    mountsSorted (applyMountActions [.mount "/a" 1, .mount "/a/b" 2]) ∧
    mountsNodup (applyMountActions [.mount "/a" 1, .mount "/a/b" 2]) ∧
    (⟨"/a/", 1⟩ : MountPoint).path.length ≤ (⟨"/a/b/", 2⟩ : MountPoint).path.length := by
  have h := mount_table_sorted_unique_longest [.mount "/a" 1, .mount "/a/b" 2]
  exact ⟨h.1, h.2.1,
    h.2.2.1 "/a/b/x" ⟨"/a/b/", 2⟩ "/x" (by decide) ⟨"/a/", 1⟩ (by decide) (by decide)⟩

end SiglumFS
